import Mathlib

/-!
Verification of the `ciff` converter (CIFF ⇄ PISA ⇄ JSONL inverted-index
formats) against its natural-language specification.

The development shallowly embeds the Rust sources:

* `src/binary_collection.rs` — length-prefixed `u32` sequences
  (`BinarySequence`, `BinaryCollection`, `RandomAccessBinaryCollection`);
* `src/payload_vector.rs` — the variable-length payload vector
  (`PayloadVector::from_iter`, `PayloadSlice::{len, get, int_at}`);
* `src/lib.rs` — the CIFF→PISA doc-record loop, the PISA→CIFF synthetic
  header, the term-reorder pass, and the JSONL→CIFF quantizer.

Modelling conventions:

* byte buffers are `List Nat` (each entry is one byte, values < 256 where
  the claim needs it);
* Rust machine integers are `Nat`/`Int`, with an explicit `% 2 ^ 64` where
  the source wraps (`u64` accumulation in `PayloadVector::from_iter`);
* `slice.get(a..b)` is `sliceGet`, returning `none` exactly when Rust
  returns `None`; an operation that can panic is modelled with an outer
  `Option` whose `none` means "the Rust code panics";
* fallible Rust functions returning `Result` become `Except`.
-/

set_option maxHeartbeats 1000000

namespace Ciff

/-! ## Little-endian byte encoding

`u32::from_le_bytes` / `u64::from_le_bytes` and `to_le_bytes`, over
`List Nat` byte buffers. -/

/-- Decodes a little-endian byte list into a natural number
(`uNN::from_le_bytes`). -/
def decodeLE : List Nat → Nat
  | [] => 0
  | b :: bs => b + 256 * decodeLE bs

/-- Encodes the low `w` bytes of `n` in little-endian order
(`uNN::to_le_bytes`, with `w` the byte width). -/
def leBytes : Nat → Nat → List Nat
  | 0, _ => []
  | w + 1, n => n % 256 :: leBytes w (n / 256)

@[simp] theorem length_leBytes (w n : Nat) : (leBytes w n).length = w := by
  induction w generalizing n with
  | zero => rfl
  | succ w ih => simp [leBytes, ih]

theorem decodeLE_leBytes (w n : Nat) : decodeLE (leBytes w n) = n % 256 ^ w := by
  induction w generalizing n with
  | zero => simp [leBytes, decodeLE, Nat.mod_one]
  | succ w ih =>
    simp only [leBytes, decodeLE, ih]
    rw [pow_succ', Nat.mod_mul]

theorem decodeLE_leBytes_of_lt {w n : Nat} (h : n < 256 ^ w) :
    decodeLE (leBytes w n) = n := by
  rw [decodeLE_leBytes, Nat.mod_eq_of_lt h]

/-! ## Rust slice accessors

`sliceGet l s e` models `l.get(s..e)` on a Rust slice: it returns the
subslice when `s ≤ e ∧ e ≤ l.length`, and `None` otherwise.
`sliceFrom l s` models `l.get(s..)`. -/

/-- Models Rust `slice.get(s..e)`: bounds-checked subslice. -/
def sliceGet (l : List Nat) (s e : Nat) : Option (List Nat) :=
  if s ≤ e ∧ e ≤ l.length then some ((l.drop s).take (e - s)) else none

/-- Models Rust `slice.get(s..)`: bounds-checked suffix. -/
def sliceFrom (l : List Nat) (s : Nat) : Option (List Nat) :=
  if s ≤ l.length then some (l.drop s) else none

theorem sliceGet_eq_some {l : List Nat} {s e : Nat} (h1 : s ≤ e) (h2 : e ≤ l.length) :
    sliceGet l s e = some ((l.drop s).take (e - s)) := by
  simp [sliceGet, h1, h2]

theorem sliceGet_isSome_iff {l : List Nat} {s e : Nat} :
    (sliceGet l s e).isSome ↔ s ≤ e ∧ e ≤ l.length := by
  by_cases h : s ≤ e ∧ e ≤ l.length <;> simp [sliceGet, h]

/-- Shifting a `sliceGet` past a prefix of known length. -/
theorem sliceGet_append (a b : List Nat) (s e : Nat) :
    sliceGet (a ++ b) (a.length + s) (a.length + e) = sliceGet b s e := by
  unfold sliceGet
  have hdrop : (a ++ b).drop (a.length + s) = b.drop s := by
    rw [List.drop_append_eq_append_drop]
    simp
  have hcond : (a.length + s ≤ a.length + e ∧ a.length + e ≤ (a ++ b).length)
      ↔ (s ≤ e ∧ e ≤ b.length) := by
    have hl : (a ++ b).length = a.length + b.length := List.length_append a b
    omega
  by_cases h : s ≤ e ∧ e ≤ b.length
  · rw [if_pos (hcond.mpr h), if_pos h, hdrop,
      show a.length + e - (a.length + s) = e - s by omega]
  · rw [if_neg (fun hc => h (hcond.mp hc)), if_neg h]

/-- Extracting the middle component of a three-way concatenation. -/
theorem sliceGet_middle (a b c : List Nat) :
    sliceGet (a ++ b ++ c) a.length (a.length + b.length) = some b := by
  rw [List.append_assoc]
  have h := sliceGet_append a (b ++ c) 0 b.length
  rw [Nat.add_zero] at h
  rw [h]
  unfold sliceGet
  rw [if_pos ⟨Nat.zero_le _, by simp⟩]
  simp [List.take_left]

/-! ## BinarySequence (`src/binary_collection.rs`)

A parsed sequence: the payload bytes (length prefix already stripped) and
the length decoded from that prefix.  The invariant `length * 4 =
bytes.length` is deliberately *not* part of the structure: the fuzz
property (claim C1) quantifies over mismatched lengths as well. -/

/-- Embeds Rust struct `BinarySequence`: payload bytes plus the decoded
length field. -/
structure BinarySequence where
  bytes : List Nat
  length : Nat
  deriving Repr, DecidableEq

/-- Embeds `unsafe fn bytes_to_u32`: reinterprets exactly 4 bytes as a
little-endian `u32`.  The unsafe pointer copy in the source is equivalent
to `u32::from_le_bytes` on those 4 bytes, which is `decodeLE`. -/
def bytes_to_u32 (bytes : List Nat) : Nat := decodeLE bytes

/-- Embeds `BinarySequence::get`: bounds check on the decoded length, then
a bounds-checked 4-byte read. -/
def BinarySequence.get (s : BinarySequence) (index : Nat) : Option Nat :=
  if index < s.length then
    (sliceGet s.bytes (index * 4) (index * 4 + 4)).map bytes_to_u32
  else none

/-- claim C1: `BinarySequence::get(index)` never panics on any byte buffer
and any index: it returns `some` of the 4-byte little-endian integer at
byte position `4 * index` exactly when `index` is below the stored length
field *and* the 4 bytes exist in the buffer, and `none` in every other
case — including buffers whose stored length field exceeds the actual
byte count.  In this embedding `BinarySequence.get` is a total function
built solely from the bounds-checked `sliceGet`; the theorem characterises
its value on all inputs. -/
theorem binarySequence_get_spec (s : BinarySequence) (index : Nat) :
    s.get index =
      if index < s.length ∧ index * 4 + 4 ≤ s.bytes.length
      then some (decodeLE ((s.bytes.drop (index * 4)).take 4))
      else none := by
  unfold BinarySequence.get
  by_cases h1 : index < s.length
  · by_cases h2 : index * 4 + 4 ≤ s.bytes.length
    · rw [if_pos h1, if_pos ⟨h1, h2⟩, sliceGet_eq_some (by omega) h2]
      simp [bytes_to_u32]
    · rw [if_pos h1, if_neg (by tauto)]
      unfold sliceGet
      rw [if_neg (by omega)]
      rfl
  · rw [if_neg h1, if_neg (by tauto)]

/-! ## BinaryCollection (`src/binary_collection.rs`)

Forward-only iteration over length-prefixed sequences.  `get_from` parses
one sequence from the front of a buffer; `next` models one step of the
`Iterator` implementation (on a parse error the remainder is left
unchanged, as in the source, where `get_next` returns before advancing
`collection.bytes`). -/

/-- Embeds the collection state: the remaining byte buffer. -/
structure BinaryCollection where
  bytes : List Nat
  deriving Repr, DecidableEq

/-- Embeds `fn get_from`: reads the 4-byte length prefix, then the
declared number of 4-byte elements, failing with `InvalidFormat`
(modelled as `Except.error ()`) when either bounds-checked read fails. -/
def get_from (bytes : List Nat) : Except Unit BinarySequence :=
  match sliceGet bytes 0 4 with
  | none => .error ()
  | some lengthBytes =>
    match sliceGet bytes 4 (4 * (bytes_to_u32 lengthBytes + 1)) with
    | none => .error ()
    | some body => .ok ⟨body, bytes_to_u32 lengthBytes⟩

/-- Embeds `impl TryFrom<&[u8]> for BinaryCollection`: the buffer length
must be divisible by the element size 4. -/
def BinaryCollection.tryFrom (bytes : List Nat) : Except Unit BinaryCollection :=
  if bytes.length % 4 = 0 then .ok ⟨bytes⟩ else .error ()

/-- Embeds `Iterator::next` for `BinaryCollection` (via `get_next`):
yields `none` when the remainder is empty, otherwise the parse result;
on success the remainder advances by `4 * (len + 1)` bytes, on failure it
stays put. -/
def BinaryCollection.next (c : BinaryCollection) :
    Option (Except Unit BinarySequence × BinaryCollection) :=
  if c.bytes.isEmpty then none
  else
    match get_from c.bytes with
    | .error e => some (.error e, c)
    | .ok s => some (.ok s, ⟨c.bytes.drop (4 * (s.length + 1))⟩)

theorem get_from_ok_of_le {bytes : List Nat}
    (h4 : 4 ≤ bytes.length) (hle : 4 * (decodeLE (bytes.take 4) + 1) ≤ bytes.length) :
    get_from bytes =
      .ok ⟨(bytes.drop 4).take (4 * (decodeLE (bytes.take 4) + 1) - 4),
        decodeLE (bytes.take 4)⟩ := by
  unfold get_from
  rw [sliceGet_eq_some (Nat.zero_le 4) h4]
  simp only [List.drop_zero, Nat.sub_zero, bytes_to_u32]
  rw [sliceGet_eq_some (by omega) hle]

theorem get_from_error_of_lt {bytes : List Nat}
    (h4 : 4 ≤ bytes.length) (hlt : bytes.length < 4 * (decodeLE (bytes.take 4) + 1)) :
    get_from bytes = .error () := by
  unfold get_from
  rw [sliceGet_eq_some (Nat.zero_le 4) h4]
  simp only [List.drop_zero, Nat.sub_zero, bytes_to_u32]
  unfold sliceGet
  rw [if_neg (by omega)]

/-- claim C5: decoding fails with `InvalidFormat` in exactly two
situations — constructing the collection from a buffer whose length is
not a multiple of 4, and a `next()` on a non-empty remainder whose
declared length needs more bytes than remain.  Any other `next()` on a
non-empty remainder parses a sequence and consumes exactly `4 + 4 * len`
bytes, preserving 4-alignment (so the alignment hypothesis is an
invariant of every state reachable from `tryFrom`). -/
theorem binaryCollection_decode_spec (bytes : List Nat) (c : BinaryCollection)
    (halign : c.bytes.length % 4 = 0) :
    ((BinaryCollection.tryFrom bytes).isOk ↔ bytes.length % 4 = 0) ∧
    (c.bytes = [] → c.next = none) ∧
    (c.bytes ≠ [] → c.bytes.length < 4 * (decodeLE (c.bytes.take 4) + 1) →
      c.next = some (.error (), c)) ∧
    (c.bytes ≠ [] → 4 * (decodeLE (c.bytes.take 4) + 1) ≤ c.bytes.length →
      ∃ s c2, c.next = some (.ok s, c2) ∧
        s.length = decodeLE (c.bytes.take 4) ∧
        c2.bytes.length + (4 + 4 * s.length) = c.bytes.length ∧
        c2.bytes.length % 4 = 0) := by
  refine ⟨?_, ?_, ?_, ?_⟩
  · unfold BinaryCollection.tryFrom
    by_cases h : bytes.length % 4 = 0 <;> simp [h, Except.isOk, Except.toBool]
  · intro h
    unfold BinaryCollection.next
    rw [if_pos (List.isEmpty_iff.mpr h)]
  · intro hne hlt
    have h4 : 4 ≤ c.bytes.length := by
      have : 0 < c.bytes.length := List.length_pos.mpr hne
      omega
    unfold BinaryCollection.next
    rw [if_neg (by simpa [List.isEmpty_iff] using hne), get_from_error_of_lt h4 hlt]
  · intro hne hle
    have h4 : 4 ≤ c.bytes.length := by
      have : 0 < c.bytes.length := List.length_pos.mpr hne
      omega
    refine ⟨⟨(c.bytes.drop 4).take (4 * (decodeLE (c.bytes.take 4) + 1) - 4),
        decodeLE (c.bytes.take 4)⟩,
      ⟨c.bytes.drop (4 * (decodeLE (c.bytes.take 4) + 1))⟩, ?_, rfl, ?_, ?_⟩
    · unfold BinaryCollection.next
      rw [if_neg (by simpa [List.isEmpty_iff] using hne), get_from_ok_of_le h4 hle]
    · simp only [List.length_drop]
      omega
    · simp only [List.length_drop]
      omega

/-- Witness for claim C5 at concrete inputs: an aligned buffer parses its
first sequence, consuming 8 bytes; a truncated declared length errors. -/
theorem binaryCollection_decode_spec_witness :
    ((⟨[2, 0, 0, 0]⟩ : BinaryCollection).next = some (.error (), ⟨[2, 0, 0, 0]⟩)) ∧
    (∃ s c2, (⟨[1, 0, 0, 0, 7, 0, 0, 0]⟩ : BinaryCollection).next = some (.ok s, c2) ∧
      s.length = 1 ∧ c2.bytes.length + (4 + 4 * s.length) = 8 ∧ c2.bytes.length % 4 = 0) := by
  constructor
  · exact ((binaryCollection_decode_spec [] ⟨[2, 0, 0, 0]⟩ (by decide)).2.2.1
      (by decide) (by decide))
  · have h := ((binaryCollection_decode_spec [] ⟨[1, 0, 0, 0, 7, 0, 0, 0]⟩ (by decide)).2.2.2
      (by decide) (by decide))
    simpa using h

/-! ## RandomAccessBinaryCollection (`src/binary_collection.rs`)

Construction iterates the whole collection once, recording each
sequence's byte offset with a running `scan`; `parseAll` is the result of
that full forward iteration (the `collect::<Result<Vec<_>, _>>` aborts at
the first parse error, exactly like `parseAll`). -/

/-- Embeds the full forward iteration of a `BinaryCollection`: the list
of parsed sequences, or the first `InvalidFormat` error. -/
def parseAll (bytes : List Nat) : Except Unit (List BinarySequence) :=
  if hne : bytes = [] then .ok []
  else
    match get_from bytes with
    | .error e => .error e
    | .ok s => (parseAll (bytes.drop (4 * (s.length + 1)))).map (s :: ·)
termination_by bytes.length
decreasing_by
  simp only [List.length_drop]
  have : 0 < bytes.length := List.length_pos.mpr hne
  omega

theorem parseAll_nil : parseAll [] = .ok [] := by
  unfold parseAll
  rfl

theorem parseAll_cons {bytes : List Nat} (hne : bytes ≠ []) :
    parseAll bytes =
      match get_from bytes with
      | .error e => .error e
      | .ok s => (parseAll (bytes.drop (4 * (s.length + 1)))).map (s :: ·) := by
  conv_lhs => rw [parseAll]
  rw [dif_neg hne]

theorem get_from_ok_inv {bytes : List Nat} {s : BinarySequence}
    (h : get_from bytes = .ok s) :
    4 ≤ bytes.length ∧ 4 * (s.length + 1) ≤ bytes.length := by
  unfold get_from at h
  split at h
  · exact absurd h (by simp)
  · rename_i lengthBytes hsg
    split at h
    · exact absurd h (by simp)
    · rename_i body hsb
      cases h
      refine ⟨(sliceGet_isSome_iff.mp (by rw [hsg]; rfl)).2, ?_⟩
      exact (sliceGet_isSome_iff.mp (by rw [hsb]; rfl)).2

/-- Byte offset of sequence `i`: the prefix sum of `4 * (len_j + 1)` over
all earlier sequences `j < i`.  This is the independent specification the
scan-computed offsets are compared against. -/
def offsetAt (seqs : List BinarySequence) (i : Nat) : Nat :=
  ((seqs.take i).map (fun s => 4 * (s.length + 1))).sum

/-- Central inversion lemma: a successful full parse locates sequence `i`
at byte offset `offsetAt seqs i`, where `get_from` re-parses it. -/
theorem parseAll_get {bytes : List Nat} {seqs : List BinarySequence}
    (h : parseAll bytes = .ok seqs) :
    ∀ i s, seqs.get? i = some s →
      offsetAt seqs i ≤ bytes.length ∧
      get_from (bytes.drop (offsetAt seqs i)) = .ok s := by
  induction seqs generalizing bytes with
  | nil => intro i s hi; simp at hi
  | cons s0 rest ih =>
    by_cases hne : bytes = []
    · subst hne
      rw [parseAll_nil] at h
      simp at h
    · rw [parseAll_cons hne] at h
      split at h
      · exact absurd h (by simp)
      · rename_i s1 hg
        rcases hr : parseAll (bytes.drop (4 * (s1.length + 1))) with e | rest1
        · rw [hr] at h
          exact Except.noConfusion
            (h : (Except.error e : Except Unit (List BinarySequence)) =
              Except.ok (s0 :: rest))
        · rw [hr] at h
          have hpair : s0 = s1 ∧ rest = rest1 := by
            have h2 : (Except.ok (s0 :: rest) : Except Unit (List BinarySequence)) =
                Except.ok (s1 :: rest1) :=
              ((h : (Except.ok (s1 :: rest1) : Except Unit (List BinarySequence)) =
                Except.ok (s0 :: rest))).symm
            simpa using h2
          obtain ⟨hs1, hr1⟩ := hpair
          subst hs1
          subst hr1
          intro i s hi
          rcases i with _ | i
          · have hs : s0 = s := by simpa using hi
            subst hs
            refine ⟨by simp [offsetAt], ?_⟩
            simpa [offsetAt] using hg
          · have hi2 : rest.get? i = some s := by simpa using hi
            obtain ⟨hle, hgf⟩ := ih hr i s hi2
            have hoff : offsetAt (s0 :: rest) (i + 1) =
                4 * (s0.length + 1) + offsetAt rest i := by
              simp [offsetAt]
            have hinv := get_from_ok_inv hg
            rw [hoff]
            constructor
            · simp only [List.length_drop] at hle
              omega
            · rw [List.drop_drop] at hgf
              exact hgf

/-- Embeds the scan in `RandomAccessBinaryCollection::try_from`: emits the
running offset for each sequence length, then advances it by
`ELEMENT_SIZE * (len + 1)`. -/
def scanOffsets (acc : Nat) : List Nat → List Nat
  | [] => []
  | len :: rest => acc :: scanOffsets (acc + 4 * (len + 1)) rest

theorem scanOffsets_length (acc : Nat) (lens : List Nat) :
    (scanOffsets acc lens).length = lens.length := by
  induction lens generalizing acc with
  | nil => rfl
  | cons l rest ih => simp [scanOffsets, ih]

theorem scanOffsets_get (acc : Nat) (lens : List Nat) (i : Nat) :
    (scanOffsets acc lens).get? i =
      if i < lens.length
      then some (acc + ((lens.take i).map (fun l => 4 * (l + 1))).sum)
      else none := by
  induction lens generalizing acc i with
  | nil => simp [scanOffsets]
  | cons l rest ih =>
    rcases i with _ | i
    · simp [scanOffsets]
    · simp only [scanOffsets, List.get?_cons_succ, ih, List.length_cons, List.take_succ_cons,
        List.map_cons, List.sum_cons]
      by_cases hlt : i < rest.length
      · rw [if_pos hlt, if_pos (by omega)]
        congr 1
        omega
      · rw [if_neg hlt, if_neg (by omega)]

/-- Embeds Rust struct `RandomAccessBinaryCollection`: the underlying
buffer plus the precomputed offset table. -/
structure RandomAccessBinaryCollection where
  bytes : List Nat
  offsets : List Nat
  deriving Repr, DecidableEq

/-- Embeds `RandomAccessBinaryCollection::try_from`: alignment check,
then one full pass collecting the byte offset of every sequence (aborting
on the first parse error). -/
def RandomAccessBinaryCollection.tryFrom (bytes : List Nat) :
    Except Unit RandomAccessBinaryCollection := do
  let c ← BinaryCollection.tryFrom bytes
  let seqs ← parseAll c.bytes
  .ok ⟨bytes, scanOffsets 0 (seqs.map BinarySequence.length)⟩

/-- Embeds `RandomAccessBinaryCollection::get`: look up the precomputed
offset, then re-parse just that sequence; the `unreachable!()` branch of
the source (parse failure after a validated construction) is modelled as
`none`. -/
def RandomAccessBinaryCollection.get (c : RandomAccessBinaryCollection) (index : Nat) :
    Option BinarySequence :=
  match c.offsets.get? index with
  | none => none
  | some off =>
    match sliceFrom c.bytes off with
    | none => none
    | some rest =>
      match get_from rest with
      | .ok s => some s
      | .error _ => none

/-- claim C4: for every buffer accepted by
`RandomAccessBinaryCollection::try_from`, the recorded offset of sequence
`i` equals the prefix sum of `4 * (len_j + 1)` over all earlier sequences
`j < i`, and `get i` returns exactly the `i`-th item of the full forward
iteration (`parseAll`) for `i < len`, and `none` for `i ≥ len`. -/
theorem rabc_spec (bytes : List Nat) (c : RandomAccessBinaryCollection)
    (h : RandomAccessBinaryCollection.tryFrom bytes = .ok c) :
    ∃ seqs, parseAll bytes = .ok seqs ∧
      c.bytes = bytes ∧
      c.offsets.length = seqs.length ∧
      (∀ i, c.offsets.get? i =
        if i < seqs.length
        then some (((seqs.take i).map (fun s => 4 * (s.length + 1))).sum)
        else none) ∧
      (∀ i, c.get i = seqs.get? i) := by
  unfold RandomAccessBinaryCollection.tryFrom at h
  unfold BinaryCollection.tryFrom at h
  by_cases halign : bytes.length % 4 = 0
  swap
  · rw [if_neg halign] at h
    exact absurd h (by simp [Bind.bind, Except.bind])
  · rw [if_pos halign] at h
    simp only [Bind.bind, Except.bind] at h
    rcases hp : parseAll bytes with e | seqs
    · rw [hp] at h
      exact absurd h (by simp)
    · rw [hp] at h
      have hc : c = ⟨bytes, scanOffsets 0 (seqs.map BinarySequence.length)⟩ := by
        simpa using h.symm
      subst hc
      have hofflen : ∀ i, (scanOffsets 0 (seqs.map BinarySequence.length)).get? i =
          if i < seqs.length
          then some (((seqs.take i).map (fun s => 4 * (s.length + 1))).sum)
          else none := by
        intro i
        rw [scanOffsets_get]
        simp only [List.length_map]
        by_cases hi : i < seqs.length
        · rw [if_pos hi, if_pos hi, Nat.zero_add, ← List.map_take, List.map_map]
          rfl
        · rw [if_neg hi, if_neg hi]
      have hlen : (scanOffsets 0 (seqs.map BinarySequence.length)).length = seqs.length := by
        rw [scanOffsets_length]
        simp
      refine ⟨seqs, rfl, rfl, hlen, hofflen, ?_⟩
      intro i
      show RandomAccessBinaryCollection.get _ i = _
      unfold RandomAccessBinaryCollection.get
      by_cases hi : i < seqs.length
      · obtain ⟨s, hs⟩ : ∃ s, seqs.get? i = some s :=
          ⟨seqs.get ⟨i, hi⟩, List.get?_eq_get hi⟩
        obtain ⟨hle, hgf⟩ := parseAll_get hp i s hs
        have hoff : (scanOffsets 0 (seqs.map BinarySequence.length)).get? i =
            some (offsetAt seqs i) := by
          rw [hofflen i, if_pos hi]
          rfl
        simp only [hoff]
        unfold sliceFrom
        rw [if_pos hle]
        simp only [hgf]
        exact hs.symm
      · have hoff : (scanOffsets 0 (seqs.map BinarySequence.length)).get? i = none := by
          rw [hofflen i, if_neg hi]
        simp only [hoff]
        rw [List.get?_eq_none.mpr (by omega)]

/-- Witness for claim C4 at a concrete two-sequence buffer. -/
theorem rabc_spec_witness :
    ∃ seqs, parseAll [1, 0, 0, 0, 7, 0, 0, 0, 2, 0, 0, 0, 5, 0, 0, 0, 6, 0, 0, 0] =
        .ok seqs ∧
      seqs.length = 2 ∧
      (RandomAccessBinaryCollection.mk
        [1, 0, 0, 0, 7, 0, 0, 0, 2, 0, 0, 0, 5, 0, 0, 0, 6, 0, 0, 0] [0, 8]).get 1 =
        seqs.get? 1 := by
  have hp2 : parseAll [2, 0, 0, 0, 5, 0, 0, 0, 6, 0, 0, 0] =
      .ok [⟨[5, 0, 0, 0, 6, 0, 0, 0], 2⟩] := by
    rw [parseAll_cons (by decide),
      show get_from [2, 0, 0, 0, 5, 0, 0, 0, 6, 0, 0, 0] =
        Except.ok ⟨[5, 0, 0, 0, 6, 0, 0, 0], 2⟩ from rfl]
    show Except.map _ (parseAll []) = _
    rw [parseAll_nil]
    rfl
  have hp1 : parseAll [1, 0, 0, 0, 7, 0, 0, 0, 2, 0, 0, 0, 5, 0, 0, 0, 6, 0, 0, 0] =
      .ok [⟨[7, 0, 0, 0], 1⟩, ⟨[5, 0, 0, 0, 6, 0, 0, 0], 2⟩] := by
    rw [parseAll_cons (by decide),
      show get_from [1, 0, 0, 0, 7, 0, 0, 0, 2, 0, 0, 0, 5, 0, 0, 0, 6, 0, 0, 0] =
        Except.ok ⟨[7, 0, 0, 0], 1⟩ from rfl]
    show Except.map _ (parseAll [2, 0, 0, 0, 5, 0, 0, 0, 6, 0, 0, 0]) = _
    rw [hp2]
    rfl
  have htry : RandomAccessBinaryCollection.tryFrom
      [1, 0, 0, 0, 7, 0, 0, 0, 2, 0, 0, 0, 5, 0, 0, 0, 6, 0, 0, 0] =
      .ok ⟨[1, 0, 0, 0, 7, 0, 0, 0, 2, 0, 0, 0, 5, 0, 0, 0, 6, 0, 0, 0], [0, 8]⟩ := by
    unfold RandomAccessBinaryCollection.tryFrom
    show (do
      let c ← BinaryCollection.tryFrom [1, 0, 0, 0, 7, 0, 0, 0, 2, 0, 0, 0, 5, 0, 0, 0, 6, 0, 0, 0]
      let seqs ← parseAll c.bytes
      Except.ok (⟨_, scanOffsets 0 (seqs.map BinarySequence.length)⟩ :
        RandomAccessBinaryCollection)) = _
    rw [show BinaryCollection.tryFrom
        [1, 0, 0, 0, 7, 0, 0, 0, 2, 0, 0, 0, 5, 0, 0, 0, 6, 0, 0, 0] =
      Except.ok ⟨[1, 0, 0, 0, 7, 0, 0, 0, 2, 0, 0, 0, 5, 0, 0, 0, 6, 0, 0, 0]⟩ from rfl]
    show (do
      let seqs ← parseAll [1, 0, 0, 0, 7, 0, 0, 0, 2, 0, 0, 0, 5, 0, 0, 0, 6, 0, 0, 0]
      Except.ok (⟨_, scanOffsets 0 (seqs.map BinarySequence.length)⟩ :
        RandomAccessBinaryCollection)) = _
    rw [hp1]
    rfl
  obtain ⟨seqs, hp, hb, hl, hoff, hget⟩ := rabc_spec _ _ htry
  exact ⟨seqs, hp, by rw [← hl]; rfl, hget 1⟩

/-! ## PayloadVector (`src/payload_vector.rs`)

Layout: an 8-byte element count `L`, then `L + 1` cumulative 8-byte
little-endian offsets, then the concatenated payload bytes.
`PayloadSlice::int_at` indexes the buffer with `data[offset..offset + 8]`,
which *panics* when out of range; the panic is modelled as the outer
`none` of an `Option`. -/

/-- Encodes a `u64` in little-endian (`u64::to_le_bytes`). -/
def u64LE (n : Nat) : List Nat := leBytes 8 n

/-- Embeds the accumulation loop of `PayloadVector::from_iter`: returns
the final element count, the offset bytes appended after the initial zero
offset, and the concatenated payload bytes.  The `u64` counters wrap at
`2 ^ 64` exactly where the Rust `u64` additions would. -/
def pvLoop : List (List Nat) → Nat → Nat → Nat × List Nat × List Nat
  | [], length, _ => (length, [], [])
  | item :: rest, length, offset =>
    let offset2 := (offset + item.length) % 2 ^ 64
    let length2 := (length + 1) % 2 ^ 64
    let r := pvLoop rest length2 offset2
    (r.1, u64LE offset2 ++ r.2.1, item ++ r.2.2)

/-- Embeds `PayloadVector::from_iter`: length placeholder (patched to the
final count), initial zero offset, per-item offsets, then the payloads. -/
def fromIter (items : List (List Nat)) : List Nat :=
  u64LE (pvLoop items 0 0).1 ++ u64LE 0 ++ (pvLoop items 0 0).2.1 ++ (pvLoop items 0 0).2.2

/-- Embeds `PayloadSlice::int_at`: `u64::from_le_bytes` of
`data[offset..offset + 8]`.  The slice-index panic on a short buffer is
the `none` case. -/
def int_at (data : List Nat) (offset : Nat) : Option Nat :=
  (sliceGet data offset (offset + 8)).map decodeLE

/-- Embeds `PayloadSlice::len`: `int_at(0)` (outer `none` = panic). -/
def payloadLen (data : List Nat) : Option Nat := int_at data 0

/-- Embeds `PayloadSlice::get`: outer `none` means the Rust code panics
(inside `len` or `int_at`); `some none` is Rust returning `None`;
`some (some bs)` is Rust returning `Some(bs)`. -/
def payloadGet (data : List Nat) (index : Nat) : Option (Option (List Nat)) :=
  match payloadLen data with
  | none => none
  | some L =>
    if L ≤ index then some none
    else
      match int_at data ((index + 1) * 8), int_at data ((index + 1) * 8 + 8) with
      | some off, some noff =>
        some (sliceGet data ((L + 2) * 8 + off) ((L + 2) * 8 + noff))
      | _, _ => none

/-- Total byte length of a list of payloads. -/
def sumLens (items : List (List Nat)) : Nat := (items.map List.length).sum

/-- Cumulative offsets `0 = c_0, c_1, …, c_L` stored in the header. -/
def cumOffsets (items : List (List Nat)) : List Nat :=
  (List.range (items.length + 1)).map (fun i => sumLens (items.take i))

/-- Offsets written by the loop when starting from a running offset. -/
def tailOffsets (offset : Nat) (items : List (List Nat)) : List Nat :=
  (List.range items.length).map (fun i => offset + sumLens (items.take (i + 1)))

theorem sumLens_cons (item : List Nat) (rest : List (List Nat)) :
    sumLens (item :: rest) = item.length + sumLens rest := by
  simp [sumLens]

theorem sumLens_append (a b : List (List Nat)) :
    sumLens (a ++ b) = sumLens a + sumLens b := by
  simp [sumLens]

theorem sumLens_take_le (items : List (List Nat)) (i : Nat) :
    sumLens (items.take i) ≤ sumLens items := by
  conv_rhs => rw [← List.take_append_drop i items]
  rw [sumLens_append]
  omega

theorem tailOffsets_cons (offset : Nat) (item : List Nat) (rest : List (List Nat)) :
    tailOffsets offset (item :: rest) =
      (offset + item.length) :: tailOffsets (offset + item.length) rest := by
  unfold tailOffsets
  rw [List.length_cons, List.range_succ_eq_map, List.map_cons, List.map_map]
  refine congrArg₂ _ ?_ ?_
  · simp [sumLens]
  · refine List.map_congr_left ?_
    intro a _
    show offset + sumLens ((item :: rest).take (a + 1 + 1)) =
      offset + item.length + sumLens (rest.take (a + 1))
    rw [List.take_succ_cons, sumLens_cons]
    omega

theorem cumOffsets_eq (items : List (List Nat)) :
    cumOffsets items = 0 :: tailOffsets 0 items := by
  unfold cumOffsets tailOffsets
  rw [List.range_succ_eq_map, List.map_cons, List.map_map]
  congr 1
  simp [sumLens]

/-- Characterisation of the `from_iter` loop under no-overflow bounds. -/
theorem pvLoop_eq (items : List (List Nat)) (length offset : Nat)
    (hS : offset + sumLens items < 2 ^ 64) (hL : length + items.length < 2 ^ 64) :
    pvLoop items length offset =
      (length + items.length, ((tailOffsets offset items).map u64LE).join, items.join) := by
  induction items generalizing length offset with
  | nil => simp [pvLoop, tailOffsets]
  | cons item rest ih =>
    rw [sumLens_cons] at hS
    rw [List.length_cons] at hL
    have ho2 : (offset + item.length) % 2 ^ 64 = offset + item.length :=
      Nat.mod_eq_of_lt (by omega)
    have hl2 : (length + 1) % 2 ^ 64 = length + 1 := Nat.mod_eq_of_lt (by omega)
    simp only [pvLoop, ho2, hl2]
    rw [ih (length + 1) (offset + item.length) (by omega) (by omega)]
    rw [tailOffsets_cons]
    rw [List.length_cons, show length + 1 + rest.length = length + (rest.length + 1) from by
      omega]
    rfl

/-- Normal form of the bytes of a freshly built payload vector. -/
theorem fromIter_eq (items : List (List Nat))
    (hL : items.length < 2 ^ 64) (hS : sumLens items < 2 ^ 64) :
    fromIter items =
      (((items.length :: cumOffsets items).map u64LE)).join ++ items.join := by
  unfold fromIter
  rw [pvLoop_eq items 0 0 (by omega) (by omega)]
  rw [cumOffsets_eq]
  simp [List.join, List.append_assoc]

theorem int_at_append (a b : List Nat) (off : Nat) :
    int_at (a ++ b) (a.length + off) = int_at b off := by
  unfold int_at
  rw [Nat.add_assoc]
  rw [sliceGet_append]

theorem int_at_of_le {data : List Nat} {off : Nat} (h : off + 8 ≤ data.length) :
    int_at data off = some (decodeLE ((data.drop off).take 8)) := by
  unfold int_at
  rw [sliceGet_eq_some (by omega) h]
  simp

theorem length_join_u64 (ns : List Nat) : ((ns.map u64LE).join).length = 8 * ns.length := by
  induction ns with
  | nil => rfl
  | cons n rest ih => simp [List.join, ih, u64LE]; omega

/-- Reading the `k`-th 8-byte block out of a block-aligned prefix. -/
theorem int_at_blocks (ns : List Nat) (tail : List Nat) (k : Nat) (hk : k < ns.length) :
    int_at ((ns.map u64LE).join ++ tail) (8 * k) = some (ns.getD k 0 % 2 ^ 64) := by
  induction ns generalizing k with
  | nil => exact absurd hk (by simp)
  | cons n rest ih =>
    have hsplit : ((n :: rest).map u64LE).join ++ tail =
        u64LE n ++ ((rest.map u64LE).join ++ tail) := by
      show (u64LE n ++ (rest.map u64LE).join) ++ tail = _
      rw [List.append_assoc]
    rcases k with _ | k
    · rw [Nat.mul_zero, hsplit]
      have h8 : (0 : Nat) + 8 ≤ (u64LE n ++ ((rest.map u64LE).join ++ tail)).length := by
        simp only [List.length_append, u64LE, length_leBytes]
        omega
      rw [int_at_of_le h8, List.drop_zero,
        show (8 : Nat) = (u64LE n).length from by simp [u64LE],
        List.take_left,
        show decodeLE (u64LE n) = n % 2 ^ 64 from by
          rw [u64LE, decodeLE_leBytes]
          norm_num]
      rfl
    · rw [hsplit]
      rw [show 8 * (k + 1) = (u64LE n).length + 8 * k from by
        simp only [u64LE, length_leBytes]
        omega]
      rw [int_at_append]
      rw [ih k (by simpa using hk)]
      rfl

/-- Extracting payload `i` out of the concatenated payload bytes. -/
theorem join_extract (items : List (List Nat)) (i : Nat) (item : List Nat)
    (hi : items.get? i = some item) :
    sliceGet items.join (sumLens (items.take i)) (sumLens (items.take (i + 1))) =
      some item := by
  induction items generalizing i with
  | nil => simp at hi
  | cons it rest ih =>
    rcases i with _ | i
    · have hit : it = item := by simpa using hi
      subst hit
      show sliceGet (it ++ rest.join) (sumLens []) (sumLens [it]) = some it
      rw [show sumLens [] = 0 from rfl,
        show sumLens [it] = it.length from by simp [sumLens]]
      unfold sliceGet
      rw [if_pos ⟨Nat.zero_le _, by simp only [List.length_append]; omega⟩]
      simp [List.take_left]
    · have hi2 : rest.get? i = some item := by simpa using hi
      have h1 : sumLens ((it :: rest).take (i + 1)) =
          it.length + sumLens (rest.take i) := by
        simp [sumLens_cons]
      have h2 : sumLens ((it :: rest).take (i + 2)) =
          it.length + sumLens (rest.take (i + 1)) := by
        simp [sumLens_cons]
      show sliceGet (it ++ rest.join) _ _ = _
      rw [h1, h2, sliceGet_append]
      exact ih i hi2

/-- claim C3: building a `PayloadVector` from any finite list of byte
strings (empty strings and the empty list included), writing its bytes
(`write` emits the internal buffer verbatim) and re-reading them through
`PayloadSlice` reproduces the list exactly: `len` is the list length and
`get i` (hence iteration, which reads `get 0, get 1, …`) returns exactly
the `i`-th original payload, with `None` past the end.  The no-overflow
hypotheses bound the `u64` length and offset counters of the builder. -/
theorem payloadVector_roundtrip (items : List (List Nat))
    (hL : items.length < 2 ^ 64) (hS : sumLens items < 2 ^ 64) :
    payloadLen (fromIter items) = some items.length ∧
    ∀ i, payloadGet (fromIter items) i = some (items.get? i) := by
  have hdata := fromIter_eq items hL hS
  set blocks : List Nat := items.length :: cumOffsets items with hblocks
  have hblen : blocks.length = items.length + 2 := by
    simp [hblocks, cumOffsets]
  have hget0 : payloadLen (fromIter items) = some items.length := by
    unfold payloadLen
    rw [hdata, show (0 : Nat) = 8 * 0 from rfl,
      int_at_blocks blocks items.join 0 (by rw [hblen]; omega)]
    have hb0 : blocks.getD 0 0 = items.length := by
      rw [hblocks]
      rfl
    rw [hb0, Nat.mod_eq_of_lt hL]
  have hcum : ∀ i, i < items.length + 1 →
      blocks.getD (i + 1) 0 = sumLens (items.take i) := by
    intro i hi
    have : (cumOffsets items).getD i 0 = sumLens (items.take i) := by
      unfold cumOffsets
      rw [List.getD_eq_get?, List.get?_map, List.get?_range hi]
      rfl
    simpa [hblocks] using this
  refine ⟨hget0, ?_⟩
  intro i
  unfold payloadGet
  rw [hget0]
  show (if items.length ≤ i then some none
    else
      match int_at (fromIter items) ((i + 1) * 8),
          int_at (fromIter items) ((i + 1) * 8 + 8) with
      | some off, some noff =>
        some (sliceGet (fromIter items)
          ((items.length + 2) * 8 + off) ((items.length + 2) * 8 + noff))
      | _, _ => none) = some (items.get? i)
  by_cases hi : items.length ≤ i
  · rw [if_pos hi, List.get?_eq_none.mpr hi]
  · rw [if_neg hi]
    push_neg at hi
    have hc1 : int_at (fromIter items) ((i + 1) * 8) =
        some (sumLens (items.take i)) := by
      rw [hdata, show (i + 1) * 8 = 8 * (i + 1) from by omega,
        int_at_blocks blocks items.join (i + 1) (by omega),
        hcum i (by omega),
        Nat.mod_eq_of_lt (by have := sumLens_take_le items i; omega)]
    have hc2 : int_at (fromIter items) ((i + 1) * 8 + 8) =
        some (sumLens (items.take (i + 1))) := by
      rw [hdata, show (i + 1) * 8 + 8 = 8 * (i + 2) from by omega,
        int_at_blocks blocks items.join (i + 2) (by omega),
        show i + 2 = (i + 1) + 1 from rfl,
        hcum (i + 1) (by omega),
        Nat.mod_eq_of_lt (by have := sumLens_take_le items (i + 1); omega)]
    rw [hc1, hc2]
    show some (sliceGet (fromIter items)
        ((items.length + 2) * 8 + sumLens (items.take i))
        ((items.length + 2) * 8 + sumLens (items.take (i + 1)))) =
      some (items.get? i)
    obtain ⟨item, hitem⟩ : ∃ item, items.get? i = some item :=
      ⟨items.get ⟨i, hi⟩, List.get?_eq_get hi⟩
    have hhdr : ((blocks.map u64LE).join).length = (items.length + 2) * 8 := by
      rw [length_join_u64, hblen]
      omega
    have hslice : sliceGet (fromIter items)
        ((items.length + 2) * 8 + sumLens (items.take i))
        ((items.length + 2) * 8 + sumLens (items.take (i + 1))) = some item := by
      rw [hdata, ← hhdr, sliceGet_append]
      exact join_extract items i item hitem
    rw [hslice, hitem]

/-- Witness for claim C3 on a concrete list containing an empty string. -/
theorem payloadVector_roundtrip_witness :
    payloadLen (fromIter [[], [104, 105]]) = some 2 ∧
    payloadGet (fromIter [[], [104, 105]]) 0 = some (some []) ∧
    payloadGet (fromIter [[], [104, 105]]) 1 = some (some [104, 105]) ∧
    payloadGet (fromIter [[], [104, 105]]) 2 = some none := by
  have h := payloadVector_roundtrip [[], [104, 105]] (by norm_num) (by norm_num [sumLens])
  exact ⟨h.1, h.2 0, h.2 1, h.2 2⟩

/-- claim C6 counterexample: on the 16-byte buffer whose stored length
field is 1 but which is missing the second offset entry, `get(0)` reaches
`int_at(16)` and the slice index `data[16..24]` *panics* (modelled as the
outer `none`) instead of returning `None`. -/
theorem payloadSlice_get_truncated_panics :
    payloadGet [1, 0, 0, 0, 0, 0, 0, 0, 0, 0, 0, 0, 0, 0, 0, 0] 0 = none := by
  decide

/-- claim C6 (amended): `len` and `get` only ever read through
bounds-checked slicing (in this embedding every read goes through
`sliceGet`, so no access outside the buffer is possible), and `get`
never panics *provided* the buffer is long enough to contain the whole
offset table promised by its stored length field; `None` (inner) is then
returned for any index at or past `len` or any out-of-range payload
window.  On shorter (truncated or corrupt) buffers `get` can panic, as
the counterexample shows, so the unconditional claim fails. -/
theorem payloadSlice_get_no_panic (data : List Nat) (L : Nat)
    (hlen : payloadLen data = some L) (htable : (L + 2) * 8 ≤ data.length) :
    ∀ i, ∃ r, payloadGet data i = some r := by
  intro i
  unfold payloadGet
  rw [hlen]
  show ∃ r, (if L ≤ i then some none
    else
      match int_at data ((i + 1) * 8), int_at data ((i + 1) * 8 + 8) with
      | some off, some noff =>
        some (sliceGet data ((L + 2) * 8 + off) ((L + 2) * 8 + noff))
      | _, _ => none) = some r
  by_cases hi : L ≤ i
  · rw [if_pos hi]
    exact ⟨none, rfl⟩
  · rw [if_neg hi]
    push_neg at hi
    rw [int_at_of_le (by omega), int_at_of_le (by omega)]
    exact ⟨_, rfl⟩

/-- Witness for the amended claim C6 on an intact two-element buffer. -/
theorem payloadSlice_get_no_panic_witness :
    ∃ r, payloadGet (fromIter [[], [104, 105]]) 1 = some r :=
  payloadSlice_get_no_panic (fromIter [[], [104, 105]]) 2 (by decide) (by decide) 1

/-! ## CIFF→PISA doc-record loop (`src/lib.rs`, `convert_to_pisa`)

The converter reads exactly `num_documents` `DocRecord` messages; each
docid is cast to `u32` (failing on values outside `u32` range) and must
equal the running 0-based counter `docs_seen`, else the conversion bails
with "Document sizes must come in order". -/

/-- Embeds the protobuf `DocRecord` fields used by the converter
(signed wire integers become `Int`). -/
structure DocRecord where
  docid : Int
  collection_docid : String
  doclength : Int
  deriving Repr, DecidableEq

/-- Models `ToPrimitive::to_u32` on a signed wire integer: succeeds
exactly for values representable as `u32`. -/
def toU32 (n : Int) : Option Nat :=
  if 0 ≤ n ∧ n < 2 ^ 32 then some n.toNat else none

/-- Embeds the `for docs_seen in 0..header.num_documents` loop of
`convert_to_pisa`: reads one record per iteration (an exhausted stream is
a protobuf read error), casts docid and doclength to `u32` (failing
otherwise), checks `docid == docs_seen`, and collects the
(length, collection docid) pairs written to `.sizes` / `.documents`. -/
def processDocRecords : Nat → Nat → List DocRecord → Except String (List (Nat × String))
  | 0, _, _ => .ok []
  | _ + 1, _, [] => .error "unexpected end of stream"
  | n + 1, seen, r :: rest =>
    match toU32 r.docid with
    | none => .error "Cannot cast docid to u32"
    | some docid =>
      match toU32 r.doclength with
      | none => .error "Cannot cast doc length to u32"
      | some length =>
        if docid ≠ seen then .error "Document sizes must come in order"
        else
          match processDocRecords n (seen + 1) rest with
          | .error e => .error e
          | .ok out => .ok ((length, r.collection_docid) :: out)

theorem processDocRecords_error (n : Nat) :
    ∀ (seen : Nat) (records : List DocRecord) (k : Nat) (r : DocRecord),
      k < n → records.get? k = some r → r.docid ≠ ((seen + k : Nat) : Int) →
      ∃ msg, processDocRecords n seen records = .error msg := by
  induction n with
  | zero => intro seen records k r hk; omega
  | succ n ih =>
    intro seen records k r hk hr hne
    rcases records with _ | ⟨r0, rest⟩
    · exact ⟨_, rfl⟩
    · show ∃ msg, (match toU32 r0.docid with
        | none => .error "Cannot cast docid to u32"
        | some docid =>
          match toU32 r0.doclength with
          | none => .error "Cannot cast doc length to u32"
          | some length =>
            if docid ≠ seen then .error "Document sizes must come in order"
            else
              match processDocRecords n (seen + 1) rest with
              | .error e => .error e
              | .ok out => .ok ((length, r0.collection_docid) :: out)) =
          Except.error msg
      rcases hd : toU32 r0.docid with _ | d
      · exact ⟨_, rfl⟩
      · rcases hl : toU32 r0.doclength with _ | l
        · exact ⟨_, rfl⟩
        · have hdval : 0 ≤ r0.docid ∧ (r0.docid.toNat = d) := by
            unfold toU32 at hd
            by_cases hcond : 0 ≤ r0.docid ∧ r0.docid < 2 ^ 32
            · rw [if_pos hcond] at hd
              exact ⟨hcond.1, by simpa using hd⟩
            · rw [if_neg hcond] at hd
              simp at hd
          show ∃ msg, (if d ≠ seen then
              (Except.error "Document sizes must come in order" :
                Except String (List (Nat × String)))
            else
              match processDocRecords n (seen + 1) rest with
              | .error e => Except.error e
              | .ok out => Except.ok ((l, r0.collection_docid) :: out)) =
            Except.error msg
          rcases k with _ | k
          · have hr0 : r0 = r := by simpa using hr
            subst hr0
            have hdne : d ≠ seen := by
              intro hEq
              apply hne
              rw [Nat.add_zero]
              have hcast : ((r0.docid.toNat : Nat) : Int) = r0.docid :=
                Int.toNat_of_nonneg hdval.1
              exact hcast.symm.trans (by rw [hdval.2, hEq])
            rw [if_pos hdne]
            exact ⟨_, rfl⟩
          · by_cases hdseen : d ≠ seen
            · rw [if_pos hdseen]
              exact ⟨_, rfl⟩
            · rw [if_neg hdseen]
              push_neg at hdseen
              obtain ⟨msg, hmsg⟩ := ih (seen + 1) rest k r (by omega)
                (by simpa using hr)
                (by
                  intro hEq
                  apply hne
                  rw [show seen + (k + 1) = seen + 1 + k from by omega]
                  exact hEq)
              rw [hmsg]
              exact ⟨msg, rfl⟩

theorem processDocRecords_ok (n : Nat) :
    ∀ (seen : Nat) (records : List DocRecord),
      seen + n ≤ 2 ^ 32 →
      (∀ k, k < n → ∃ r, records.get? k = some r ∧ r.docid = ((seen + k : Nat) : Int) ∧
        0 ≤ r.doclength ∧ r.doclength < 2 ^ 32) →
      ∃ out, processDocRecords n seen records = .ok out ∧ out.length = n := by
  induction n with
  | zero => intro seen records _ _; exact ⟨[], rfl, rfl⟩
  | succ n ih =>
    intro seen records hbound h
    obtain ⟨r, hr, hdocid, hl0, hllt⟩ := h 0 (by omega)
    rcases records with _ | ⟨r0, rest⟩
    · simp at hr
    · have hr0 : r0 = r := by simpa using hr
      subst hr0
      rw [Nat.add_zero] at hdocid
      have hd : toU32 r0.docid = some seen := by
        unfold toU32
        rw [if_pos ⟨by omega, by rw [hdocid]; exact_mod_cast by omega⟩]
        rw [hdocid]
        simp
      have hl : toU32 r0.doclength = some r0.doclength.toNat := by
        unfold toU32
        rw [if_pos ⟨hl0, hllt⟩]
      obtain ⟨out, hout, hlen⟩ := ih (seen + 1) rest (by omega) (by
        intro k hk
        obtain ⟨r2, hr2, hd2, h02, hlt2⟩ := h (k + 1) (by omega)
        exact ⟨r2, by simpa using hr2, by
          rw [show seen + 1 + k = seen + (k + 1) from by omega]
          exact hd2, h02, hlt2⟩)
      refine ⟨(r0.doclength.toNat, r0.collection_docid) :: out, ?_, by simp [hlen]⟩
      show (match toU32 r0.docid with
        | none => Except.error "Cannot cast docid to u32"
        | some docid =>
          match toU32 r0.doclength with
          | none => Except.error "Cannot cast doc length to u32"
          | some length =>
            if docid ≠ seen then Except.error "Document sizes must come in order"
            else
              match processDocRecords n (seen + 1) rest with
              | .error e => Except.error e
              | .ok out => Except.ok ((length, r0.collection_docid) :: out)) = _
      rw [hd, hl]
      show (if seen ≠ seen then
          (Except.error "Document sizes must come in order" :
            Except String (List (Nat × String)))
        else
          match processDocRecords n (seen + 1) rest with
          | .error e => Except.error e
          | .ok out => Except.ok ((r0.doclength.toNat, r0.collection_docid) :: out)) = _
      rw [if_neg (by simp), hout]

/-- claim C2: during CIFF→PISA conversion, if the `k`-th doc record
(0-based) carries an internal docid different from `k`, the conversion
returns a fatal error; conversely a stream whose docids are exactly
`0, 1, …, num_docs - 1` in order (with doc lengths representable as
`u32`) passes the check, every docid being accepted.  `num_docs` is a
`u32` in the source, whence the bound hypothesis. -/
theorem docRecord_ordering_spec (records : List DocRecord) (numDocs : Nat)
    (hnum : numDocs ≤ 2 ^ 32) :
    (∀ k r, k < numDocs → records.get? k = some r → r.docid ≠ (k : Int) →
      ∃ msg, processDocRecords numDocs 0 records = .error msg) ∧
    ((∀ k, k < numDocs → ∃ r, records.get? k = some r ∧ r.docid = (k : Int) ∧
        0 ≤ r.doclength ∧ r.doclength < 2 ^ 32) →
      ∃ out, processDocRecords numDocs 0 records = .ok out ∧ out.length = numDocs) := by
  constructor
  · intro k r hk hr hne
    exact processDocRecords_error numDocs 0 records k r hk hr
      (by simpa using hne)
  · intro h
    refine processDocRecords_ok numDocs 0 records (by omega) ?_
    intro k hk
    obtain ⟨r, hr, hd, h0, hlt⟩ := h k hk
    exact ⟨r, hr, by simpa using hd, h0, hlt⟩

/-- Witness for claim C2: a stream with docids `0, 2` errors; a dense
stream `0, 1` succeeds with both records accepted. -/
theorem docRecord_ordering_spec_witness :
    (∃ msg, processDocRecords 2 0 [⟨0, "a", 3⟩, ⟨2, "b", 4⟩] = .error msg) ∧
    (∃ out, processDocRecords 2 0 [⟨0, "a", 3⟩, ⟨1, "b", 4⟩] = .ok out ∧
      out.length = 2) := by
  constructor
  · exact (docRecord_ordering_spec [⟨0, "a", 3⟩, ⟨2, "b", 4⟩] 2 (by norm_num)).1
      1 ⟨2, "b", 4⟩ (by norm_num) rfl (by norm_num)
  · refine (docRecord_ordering_spec [⟨0, "a", 3⟩, ⟨1, "b", 4⟩] 2 (by norm_num)).2 ?_
    intro k hk
    interval_cases k
    · exact ⟨⟨0, "a", 3⟩, rfl, by norm_num, by norm_num, by norm_num⟩
    · exact ⟨⟨1, "b", 4⟩, rfl, by norm_num, by norm_num, by norm_num⟩

/-! ## PISA→CIFF synthetic header (`src/lib.rs`, `fn header`)

The header pass reads the document count from the leading `.docs`
singleton, counts the remaining sequences, sums the `.sizes` values, and
sets `average_doclength = doclen_sum as f64 / f64::from(num_documents)`
with *no* zero-count guard. -/

/-- Embeds `BinarySequence::iter().collect()`: reads `get 0, get 1, …`
and stops at the first `none`.  `get i` is `none` for every `i ≥ length`,
so `length` steps of fuel are exact. -/
def seqElemsGo (s : BinarySequence) : Nat → Nat → List Nat
  | _, 0 => []
  | i, fuel + 1 =>
    match s.get i with
    | none => []
    | some v => v :: seqElemsGo s (i + 1) fuel

/-- Elements yielded by iterating a parsed sequence. -/
def BinarySequence.elems (s : BinarySequence) : List Nat := seqElemsGo s 0 s.length

/-- Embeds `fn read_document_count`: first sequence of the collection,
element 0; also returns the advanced collection state (the source
advances the `&mut BinaryCollection`). -/
def read_document_count (c : BinaryCollection) :
    Except Unit (Nat × BinaryCollection) :=
  match c.next with
  | none => .error ()
  | some (.error _, _) => .error ()
  | some (.ok s, c2) =>
    match s.get 0 with
    | none => .error ()
    | some v => .ok (v, c2)

/-- Embeds `fn sizes`: the first sequence of the `.sizes` collection
(error when the file is empty or malformed). -/
def sizesFn (memory : List Nat) : Except Unit BinarySequence :=
  match BinaryCollection.tryFrom memory with
  | .error e => .error e
  | .ok c =>
    match c.next with
    | none => .error ()
    | some (.error e, _) => .error e
    | some (.ok s, _) => .ok s

/-- Models the `f64` division of the average-doclength computation:
`some q` is a finite IEEE quotient (rounding abstracted, the value is the
exact rational); `none` is the non-finite result (NaN for `0.0 / 0.0`,
±∞ otherwise) produced by dividing by `+0.0` when the count is zero. -/
def f64Div (a : ℚ) (b : ℚ) : Option ℚ := if b = 0 then none else some (a / b)

/-- Embeds the fields of `proto::Header` set by the synthetic-header
pass.  Counts are kept as the unsigned values the source computes with
(the final `as i32` store is a plain wire-format cast). -/
structure CiffHeader where
  version : Nat
  num_postings_lists : Nat
  total_postings_lists : Nat
  total_terms_in_collection : Nat
  num_docs : Nat
  total_docs : Nat
  average_doclength : Option ℚ
  description : String
  deriving Repr, DecidableEq

/-- Embeds `fn header`: reads the document count from the leading `.docs`
singleton, counts the remaining posting-list sequences (aborting on any
parse error), sums the `.sizes` values, and fills the synthetic header,
computing the average doclength as `doclen_sum / num_documents` in `f64`
with no special case for a zero count. -/
def pisaHeader (documentsBytes sizesBytes : List Nat) (description : String) :
    Except Unit CiffHeader :=
  match BinaryCollection.tryFrom documentsBytes with
  | .error e => .error e
  | .ok c0 =>
    match read_document_count c0 with
    | .error e => .error e
    | .ok (numDocuments, c1) =>
      match parseAll c1.bytes with
      | .error e => .error e
      | .ok seqs =>
        match sizesFn sizesBytes with
        | .error e => .error e
        | .ok sizesSeq =>
          let doclenSum := sizesSeq.elems.sum
          .ok
            { version := 1
              num_postings_lists := seqs.length
              total_postings_lists := seqs.length
              total_terms_in_collection := doclenSum
              num_docs := numDocuments
              total_docs := numDocuments
              average_doclength := f64Div (doclenSum : ℚ) (numDocuments : ℚ)
              description := description }

/-- claim C8 counterexample: a `.docs` file whose leading singleton holds
document count 0 and a `.sizes` file with one empty sequence produce a
header whose average doclength is the IEEE `0.0 / 0.0 = NaN` (modelled
`none`), not `0.0`: the PISA→CIFF `header` function has no zero-count
fallback. -/
theorem pisaHeader_zero_docs_not_zero :
    ∃ hdr, pisaHeader [1, 0, 0, 0, 0, 0, 0, 0] [0, 0, 0, 0] "" = .ok hdr ∧
      hdr.num_docs = 0 ∧ hdr.average_doclength = none ∧
      hdr.average_doclength ≠ some 0 := by
  have hstep : pisaHeader [1, 0, 0, 0, 0, 0, 0, 0] [0, 0, 0, 0] "" =
      match parseAll ([] : List Nat) with
      | .error _ => .error ()
      | .ok seqs =>
        .ok
          { version := 1
            num_postings_lists := seqs.length
            total_postings_lists := seqs.length
            total_terms_in_collection := 0
            num_docs := 0
            total_docs := 0
            average_doclength := f64Div 0 0
            description := "" } := rfl
  rw [parseAll_nil] at hstep
  exact ⟨_, hstep, rfl, rfl, by simp [f64Div]⟩

/-- claim C8 (amended): the synthetic header's average document length
equals the sum of the `.sizes` values divided by the document count read
from the leading `.docs` singleton whenever that count is non-zero; when
the count is 0 the value is the non-finite IEEE quotient (NaN or ±∞),
*not* `0.0` — the `0.0` fallback exists only in the JSONL→CIFF path. -/
theorem pisaHeader_avg_spec (documentsBytes sizesBytes : List Nat)
    (description : String) (hdr : CiffHeader)
    (h : pisaHeader documentsBytes sizesBytes description = .ok hdr) :
    (hdr.num_docs ≠ 0 → hdr.average_doclength =
      some ((hdr.total_terms_in_collection : ℚ) / (hdr.num_docs : ℚ))) ∧
    (hdr.num_docs = 0 → hdr.average_doclength = none) := by
  unfold pisaHeader at h
  split at h
  · exact absurd h (by simp)
  · split at h
    · exact absurd h (by simp)
    · rename_i c0 pair numDocuments c1 heq2
      split at h
      · exact absurd h (by simp)
      · split at h
        · exact absurd h (by simp)
        · rename_i sizesSeq heq4
          cases h
          constructor
          · intro hne
            have hne2 : numDocuments ≠ 0 := hne
            show f64Div (sizesSeq.elems.sum : ℚ) (numDocuments : ℚ) =
              some ((sizesSeq.elems.sum : ℚ) / (numDocuments : ℚ))
            unfold f64Div
            rw [if_neg (by exact_mod_cast hne2)]
          · intro hzero
            have hz2 : numDocuments = 0 := hzero
            show f64Div (sizesSeq.elems.sum : ℚ) (numDocuments : ℚ) = none
            unfold f64Div
            rw [if_pos (by exact_mod_cast hz2)]

/-- Witness for the amended claim C8: a 2-document index with size sum 5
gets average doclength 5/2. -/
theorem pisaHeader_avg_spec_witness :
    ∃ hdr, pisaHeader [1, 0, 0, 0, 2, 0, 0, 0] [2, 0, 0, 0, 2, 0, 0, 0, 3, 0, 0, 0] "" =
        .ok hdr ∧
      hdr.average_doclength = some ((5 : ℚ) / 2) := by
  have hstep : pisaHeader [1, 0, 0, 0, 2, 0, 0, 0] [2, 0, 0, 0, 2, 0, 0, 0, 3, 0, 0, 0] "" =
      match parseAll ([] : List Nat) with
      | .error _ => .error ()
      | .ok seqs =>
        .ok
          { version := 1
            num_postings_lists := seqs.length
            total_postings_lists := seqs.length
            total_terms_in_collection := 5
            num_docs := 2
            total_docs := 2
            average_doclength := f64Div 5 2
            description := "" } := rfl
  rw [parseAll_nil] at hstep
  have hfin := (pisaHeader_avg_spec _ _ _ _ hstep).1 (by norm_num)
  exact ⟨_, hstep, by rw [hfin]; norm_num⟩

/-! ## JSONL→CIFF quantization (`src/lib.rs`, `JsonlToCiff::convert`)

Quantize mode: a first pass folds min/max over all strictly positive
scores (fatal error if none exists), a second pass maps each positive
score linearly from `[min, max]` into `[1, 255]`, rounding and clamping;
scores `≤ 0` get tf `0` and are dropped from the postings.  Scores are
modelled as exact rationals. -/

/-- Embeds a parsed JSONL line: document id and term→score vector (the
`HashMap` is modelled as the association list of its entries). -/
structure JsonDoc where
  id : String
  vector : List (String × ℚ)

/-- Models Rust `f64::round` (round half away from zero) on exact
rationals. -/
def rustRound (q : ℚ) : ℤ := if 0 ≤ q then ⌊q + 1 / 2⌋ else ⌈q - 1 / 2⌉

/-- Models Rust `i32::clamp(lo, hi)` for `lo ≤ hi`. -/
def clampInt (x lo hi : ℤ) : ℤ := max lo (min x hi)

/-- Embeds the per-score tf computation of the quantize branch:
`score ≤ 0` yields `0` (filtered out below); otherwise the score is
normalised over `[min_score, max_score]`, scaled by the quantization
range `MAX_QUANTIZED_VALUE - MIN_QUANTIZED_VALUE = 255 - 1 = 254`,
shifted by `MIN_QUANTIZED_VALUE = 1`, rounded and clamped into
`[1, 255]`.  On the single-distinct-score input (`max = min`) the `f64`
code computes `0.0 / 0.0 = NaN`, `NaN as i32 = 0`, clamped to 1; the
rational convention `x / 0 = 0` yields the same clamped value 1, so the
model agrees there too. -/
def quantTf (minScore maxScore score : ℚ) : ℤ :=
  if score ≤ 0 then 0
  else
    clampInt (rustRound ((score - minScore) / (maxScore - minScore) * 254 + 1)) 1 255

/-- Embeds one min/max update of the first pass: only strictly positive
scores are considered; `none` models the still-infinite initial state. -/
def updMinMax (acc : Option (ℚ × ℚ)) (score : ℚ) : Option (ℚ × ℚ) :=
  if 0 < score then
    match acc with
    | none => some (score, score)
    | some (mn, mx) => some (min mn score, max mx score)
  else acc

/-- Embeds the whole first pass over every line's vector. -/
def findMinMax (docs : List JsonDoc) : Option (ℚ × ℚ) :=
  docs.foldl (fun acc doc => doc.vector.foldl (fun a p => updMinMax a p.2) acc) none

/-- Embeds the infinity check after the first pass: no positive score
anywhere is the fatal quantization error. -/
def quantizationRange (docs : List JsonDoc) : Except String (ℚ × ℚ) :=
  match findMinMax docs with
  | none => .error "No valid scores found for quantization"
  | some r => .ok r

/-- Embeds the posting construction for one line in quantize mode: each
(term, score) pair becomes `(term, docid, tf)` unless `tf ≤ 0`, in which
case it is skipped (`continue`). -/
def linePostings (minScore maxScore : ℚ) (docid : ℤ)
    (vector : List (String × ℚ)) : List (String × ℤ × ℤ) :=
  vector.filterMap (fun p =>
    let tf := quantTf minScore maxScore p.2
    if tf ≤ 0 then none else some (p.1, docid, tf))

/-- Flat list of all scores of all lines, in processing order. -/
def allScores (docs : List JsonDoc) : List ℚ :=
  (docs.map (fun d => d.vector.map Prod.snd)).join

/-- Predicate: `s` occurs in `docs` as a strictly positive score. -/
def PosScore (docs : List JsonDoc) (s : ℚ) : Prop :=
  0 < s ∧ s ∈ allScores docs

theorem findMinMax_eq (docs : List JsonDoc) :
    findMinMax docs = (allScores docs).foldl updMinMax none := by
  unfold findMinMax allScores
  generalize (none : Option (ℚ × ℚ)) = acc
  induction docs generalizing acc with
  | nil => rfl
  | cons doc rest ih =>
    show List.foldl _ (List.foldl (fun a p => updMinMax a p.2) acc doc.vector) rest =
      List.foldl updMinMax acc
        ((doc.vector.map Prod.snd) ++ (rest.map (fun d => d.vector.map Prod.snd)).join)
    rw [List.foldl_append, List.foldl_map]
    exact ih _

theorem foldl_updMinMax_pos (scores : List ℚ) :
    ∀ acc mn mx,
      (∀ a b, acc = some (a, b) → 0 < a ∧ a ≤ b) →
      scores.foldl updMinMax acc = some (mn, mx) → 0 < mn ∧ mn ≤ mx := by
  induction scores with
  | nil => intro acc mn mx hacc h; exact hacc mn mx h
  | cons s rest ih =>
    intro acc mn mx hacc h
    refine ih (updMinMax acc s) mn mx ?_ h
    intro a b hab
    unfold updMinMax at hab
    by_cases hs : 0 < s
    · rw [if_pos hs] at hab
      rcases hc : acc with _ | ⟨a0, b0⟩
      · rw [hc] at hab
        have : s = a ∧ s = b := by simpa using hab
        constructor
        · rw [← this.1]; exact hs
        · rw [← this.1, ← this.2]
      · rw [hc] at hab
        have h0 := hacc a0 b0 hc
        have : min a0 s = a ∧ max b0 s = b := by simpa using hab
        obtain ⟨ha, hb⟩ := this
        subst ha
        subst hb
        constructor
        · exact lt_min h0.1 hs
        · calc min a0 s ≤ s := min_le_right _ _
            _ ≤ max b0 s := le_max_right _ _
    · rw [if_neg hs] at hab
      exact hacc a b hab

theorem foldl_updMinMax_mono (scores : List ℚ) :
    ∀ a b mn mx,
      scores.foldl updMinMax (some (a, b)) = some (mn, mx) →
      mn ≤ a ∧ b ≤ mx := by
  induction scores with
  | nil =>
    intro a b mn mx h
    have h2 : a = mn ∧ b = mx := by simpa using h
    obtain ⟨h3, h4⟩ := h2
    subst h3
    subst h4
    exact ⟨le_refl _, le_refl _⟩
  | cons s rest ih =>
    intro a b mn mx h
    rw [List.foldl_cons] at h
    by_cases hs : 0 < s
    · have hupd : updMinMax (some (a, b)) s = some (min a s, max b s) := by
        unfold updMinMax
        rw [if_pos hs]
      rw [hupd] at h
      obtain ⟨h1, h2⟩ := ih (min a s) (max b s) mn mx h
      exact ⟨le_trans h1 (min_le_left _ _), le_trans (le_max_left _ _) h2⟩
    · have hupd : updMinMax (some (a, b)) s = some (a, b) := by
        unfold updMinMax
        rw [if_neg hs]
      rw [hupd] at h
      exact ih a b mn mx h

theorem foldl_updMinMax_bounds (scores : List ℚ) :
    ∀ acc mn mx,
      scores.foldl updMinMax acc = some (mn, mx) →
      ∀ s ∈ scores, 0 < s → mn ≤ s ∧ s ≤ mx := by
  induction scores with
  | nil => intro acc mn mx h s hs; simp at hs
  | cons s0 rest ih =>
    intro acc mn mx h s hs hpos
    rw [List.foldl_cons] at h
    rcases List.mem_cons.mp hs with hEq | hmem
    · subst hEq
      have hrange : ∃ a b, updMinMax acc s = some (a, b) ∧ a ≤ s ∧ s ≤ b := by
        unfold updMinMax
        rw [if_pos hpos]
        rcases acc with _ | ⟨a0, b0⟩
        · exact ⟨s, s, rfl, le_refl _, le_refl _⟩
        · exact ⟨min a0 s, max b0 s, rfl, min_le_right _ _, le_max_right _ _⟩
      obtain ⟨a, b, hupd, ha, hb⟩ := hrange
      rw [hupd] at h
      obtain ⟨h1, h2⟩ := foldl_updMinMax_mono rest a b mn mx h
      exact ⟨le_trans h1 ha, le_trans hb h2⟩
    · exact ih (updMinMax acc s0) mn mx h s hmem hpos

theorem foldl_updMinMax_attained (scores : List ℚ) :
    ∀ acc mn mx,
      scores.foldl updMinMax acc = some (mn, mx) →
      (mn ∈ scores ∨ ∃ a b, acc = some (a, b) ∧ mn = a) ∧
      (mx ∈ scores ∨ ∃ a b, acc = some (a, b) ∧ mx = b) := by
  induction scores with
  | nil =>
    intro acc mn mx h
    have h2 : acc = some (mn, mx) := by simpa using h
    exact ⟨Or.inr ⟨mn, mx, h2, rfl⟩, Or.inr ⟨mn, mx, h2, rfl⟩⟩
  | cons s rest ih =>
    intro acc mn mx h
    rw [List.foldl_cons] at h
    obtain ⟨h1, h2⟩ := ih (updMinMax acc s) mn mx h
    by_cases hs : 0 < s
    · rcases hc : acc with _ | ⟨a0, b0⟩
      · have hupd : updMinMax acc s = some (s, s) := by
          unfold updMinMax
          rw [if_pos hs, hc]
        rw [hupd] at h1 h2
        constructor
        · rcases h1 with hm | ⟨a, b, hab, hEq⟩
          · exact Or.inl (List.mem_cons_of_mem _ hm)
          · have : a = s := by
              have h3 : s = a ∧ s = b := by simpa using hab
              exact h3.1.symm
            exact Or.inl (by rw [hEq, this]; exact List.mem_cons_self _ _)
        · rcases h2 with hm | ⟨a, b, hab, hEq⟩
          · exact Or.inl (List.mem_cons_of_mem _ hm)
          · have : b = s := by
              have h3 : s = a ∧ s = b := by simpa using hab
              exact h3.2.symm
            exact Or.inl (by rw [hEq, this]; exact List.mem_cons_self _ _)
      · have hupd : updMinMax acc s = some (min a0 s, max b0 s) := by
          unfold updMinMax
          rw [if_pos hs, hc]
        rw [hupd] at h1 h2
        constructor
        · rcases h1 with hm | ⟨a, b, hab, hEq⟩
          · exact Or.inl (List.mem_cons_of_mem _ hm)
          · have ha : a = min a0 s := by
              have h3 : min a0 s = a ∧ max b0 s = b := by simpa using hab
              exact h3.1.symm
            rcases min_choice a0 s with hmc | hmc
            · exact Or.inr ⟨a0, b0, rfl, by rw [hEq, ha, hmc]⟩
            · exact Or.inl (by rw [hEq, ha, hmc]; exact List.mem_cons_self _ _)
        · rcases h2 with hm | ⟨a, b, hab, hEq⟩
          · exact Or.inl (List.mem_cons_of_mem _ hm)
          · have hb : b = max b0 s := by
              have h3 : min a0 s = a ∧ max b0 s = b := by simpa using hab
              exact h3.2.symm
            rcases max_choice b0 s with hmc | hmc
            · exact Or.inr ⟨a0, b0, rfl, by rw [hEq, hb, hmc]⟩
            · exact Or.inl (by rw [hEq, hb, hmc]; exact List.mem_cons_self _ _)
    · have hupd : updMinMax acc s = acc := by
        unfold updMinMax
        rw [if_neg hs]
      rw [hupd] at h1 h2
      constructor
      · rcases h1 with hm | hrest
        · exact Or.inl (List.mem_cons_of_mem _ hm)
        · exact Or.inr hrest
      · rcases h2 with hm | hrest
        · exact Or.inl (List.mem_cons_of_mem _ hm)
        · exact Or.inr hrest

theorem foldl_updMinMax_none (scores : List ℚ) (h : ∀ s ∈ scores, s ≤ 0) :
    scores.foldl updMinMax none = none := by
  induction scores with
  | nil => rfl
  | cons s rest ih =>
    rw [List.foldl_cons]
    have hupd : updMinMax none s = none := by
      unfold updMinMax
      rw [if_neg (by
        have := h s (List.mem_cons_self _ _)
        linarith)]
    rw [hupd]
    exact ih (fun s2 hs2 => h s2 (List.mem_cons_of_mem _ hs2))

/-- Characterisation of a successful first pass: the reported min and max
are attained positive scores bounding every positive score in the
input. -/
theorem findMinMax_spec (docs : List JsonDoc) (mn mx : ℚ)
    (h : findMinMax docs = some (mn, mx)) :
    0 < mn ∧ mn ≤ mx ∧ PosScore docs mn ∧ PosScore docs mx ∧
    ∀ s, PosScore docs s → mn ≤ s ∧ s ≤ mx := by
  rw [findMinMax_eq] at h
  have hpos := foldl_updMinMax_pos (allScores docs) none mn mx
    (by intro a b hab; simp at hab) h
  have hatt := foldl_updMinMax_attained (allScores docs) none mn mx h
  have hbnd := foldl_updMinMax_bounds (allScores docs) none mn mx h
  have hmnmem : mn ∈ allScores docs := by
    rcases hatt.1 with hm | ⟨a, b, hab, _⟩
    · exact hm
    · simp at hab
  have hmxmem : mx ∈ allScores docs := by
    rcases hatt.2 with hm | ⟨a, b, hab, _⟩
    · exact hm
    · simp at hab
  refine ⟨hpos.1, hpos.2, ⟨hpos.1, hmnmem⟩,
    ⟨lt_of_lt_of_le hpos.1 hpos.2, hmxmem⟩, ?_⟩
  intro s hs
  exact hbnd s hs.2 hs.1

theorem rustRound_one : rustRound 1 = 1 := by
  unfold rustRound
  rw [if_pos (by norm_num)]
  have h : ⌊(1 : ℚ) + 1 / 2⌋ = 1 := by
    rw [Int.floor_eq_iff]
    constructor <;> norm_num
  exact h

theorem rustRound_255 : rustRound 255 = 255 := by
  unfold rustRound
  rw [if_pos (by norm_num)]
  have h : ⌊(255 : ℚ) + 1 / 2⌋ = 255 := by
    rw [Int.floor_eq_iff]
    constructor <;> norm_num
  exact h

theorem quantTf_min (mn mx : ℚ) (h0 : 0 < mn) (hlt : mn < mx) :
    quantTf mn mx mn = 1 := by
  unfold quantTf
  rw [if_neg (by linarith)]
  rw [sub_self, zero_div, zero_mul, zero_add, rustRound_one]
  unfold clampInt
  norm_num

theorem quantTf_max (mn mx : ℚ) (h0 : 0 < mn) (hlt : mn < mx) :
    quantTf mn mx mx = 255 := by
  unfold quantTf
  rw [if_neg (by linarith)]
  rw [div_self (by
    have : (0 : ℚ) < mx - mn := by linarith
    exact ne_of_gt this)]
  rw [one_mul, show (254 : ℚ) + 1 = 255 from by norm_num, rustRound_255]
  unfold clampInt
  norm_num

theorem quantTf_range (mn mx score : ℚ) (hpos : 0 < score) :
    1 ≤ quantTf mn mx score ∧ quantTf mn mx score ≤ 255 := by
  unfold quantTf
  rw [if_neg (by linarith)]
  unfold clampInt
  exact ⟨le_max_left _ _, max_le (by norm_num) (min_le_right _ _)⟩

theorem linePostings_mem (mn mx : ℚ) (docid : ℤ) (vector : List (String × ℚ)) :
    ∀ e ∈ linePostings mn mx docid vector,
      (∃ p ∈ vector, 0 < p.2 ∧ e = (p.1, docid, quantTf mn mx p.2)) ∧
      1 ≤ e.2.2 ∧ e.2.2 ≤ 255 := by
  intro e he
  unfold linePostings at he
  obtain ⟨p, hp, hpe⟩ := List.mem_filterMap.mp he
  have hpe2 : (if quantTf mn mx p.2 ≤ 0 then none
      else some (p.1, docid, quantTf mn mx p.2)) = some e := hpe
  by_cases htf : quantTf mn mx p.2 ≤ 0
  · rw [if_pos htf] at hpe2
    exact absurd hpe2 (by simp)
  · rw [if_neg htf] at hpe2
    have he2 : (p.1, docid, quantTf mn mx p.2) = e := by simpa using hpe2
    have hscore : 0 < p.2 := by
      by_contra hnp
      push_neg at hnp
      apply htf
      unfold quantTf
      rw [if_pos hnp]
    obtain ⟨h1, h2⟩ := quantTf_range mn mx p.2 hscore
    subst he2
    exact ⟨⟨p, hp, hscore, rfl⟩, h1, h2⟩

/-- claim C9: with quantization enabled and at least two distinct
strictly-positive scores in the input, the minimum positive score maps to
tf 1 and the maximum to 255; every positive score maps into `[1, 255]`;
every posting produced for a line stems from a strictly positive score
(so nothing with score ≤ 0 appears in the output); and when no positive
score exists anywhere the conversion fails with the quantization
error. -/
theorem quantization_spec (docs : List JsonDoc) (mn mx : ℚ)
    (hfm : findMinMax docs = some (mn, mx))
    (htwo : ∃ s1 s2, PosScore docs s1 ∧ PosScore docs s2 ∧ s1 ≠ s2) :
    PosScore docs mn ∧ PosScore docs mx ∧
    (∀ s, PosScore docs s → mn ≤ s ∧ s ≤ mx) ∧
    quantTf mn mx mn = 1 ∧ quantTf mn mx mx = 255 ∧
    (∀ s, PosScore docs s → 1 ≤ quantTf mn mx s ∧ quantTf mn mx s ≤ 255) ∧
    (∀ docid vector, ∀ e ∈ linePostings mn mx docid vector,
      (∃ p ∈ vector, 0 < p.2 ∧ e = (p.1, docid, quantTf mn mx p.2)) ∧
      1 ≤ e.2.2 ∧ e.2.2 ≤ 255) ∧
    (∀ docs2 : List JsonDoc, (∀ s ∈ allScores docs2, s ≤ 0) →
      quantizationRange docs2 = .error "No valid scores found for quantization") := by
  obtain ⟨hmn0, hmnmx, hmnpos, hmxpos, hbnd⟩ := findMinMax_spec docs mn mx hfm
  have hlt : mn < mx := by
    obtain ⟨s1, s2, hs1, hs2, hne⟩ := htwo
    rcases lt_or_eq_of_le hmnmx with h | h
    · exact h
    · exfalso
      obtain ⟨h1a, h1b⟩ := hbnd s1 hs1
      obtain ⟨h2a, h2b⟩ := hbnd s2 hs2
      apply hne
      rw [← h] at h1b h2b
      have e1 : s1 = mn := le_antisymm h1b h1a
      have e2 : s2 = mn := le_antisymm h2b h2a
      rw [e1, e2]
  refine ⟨hmnpos, hmxpos, hbnd, quantTf_min mn mx hmn0 hlt,
    quantTf_max mn mx hmn0 hlt, ?_, ?_, ?_⟩
  · intro s hs
    exact quantTf_range mn mx s hs.1
  · intro docid vector e he
    exact linePostings_mem mn mx docid vector e he
  · intro docs2 h2
    unfold quantizationRange
    rw [findMinMax_eq, foldl_updMinMax_none (allScores docs2) h2]

/-- Witness for claim C9 on a one-line input with scores 1, 3 and a
dropped negative score. -/
theorem quantization_spec_witness :
    quantTf 1 3 1 = 1 ∧ quantTf 1 3 3 = 255 ∧
    quantizationRange [⟨"d", [("a", -1)]⟩] =
      .error "No valid scores found for quantization" := by
  have hfm : findMinMax [⟨"d", [("a", 1), ("b", 3), ("c", -2)]⟩] = some (1, 3) := by
    show updMinMax (updMinMax (updMinMax none 1) 3) (-2) = some (1, 3)
    unfold updMinMax
    norm_num
  have h := quantization_spec [⟨"d", [("a", 1), ("b", 3), ("c", -2)]⟩] 1 3 hfm
    ⟨1, 3, ⟨by norm_num, by
        rw [show allScores [⟨"d", [("a", 1), ("b", 3), ("c", -2)]⟩] = [1, 3, -2] from rfl]
        simp⟩,
      ⟨by norm_num, by
        rw [show allScores [⟨"d", [("a", 1), ("b", 3), ("c", -2)]⟩] = [1, 3, -2] from rfl]
        simp⟩,
      by norm_num⟩
  refine ⟨h.2.2.2.1, h.2.2.2.2.1, ?_⟩
  refine h.2.2.2.2.2.2.2 [⟨"d", [("a", -1)]⟩] ?_
  intro s hs
  rw [show allScores [⟨"d", [("a", -1)]⟩] = [-1] from rfl] at hs
  have : s = -1 := by simpa using hs
  rw [this]
  norm_num

/-! ## JSONL→CIFF docid assignment (`src/lib.rs`, `JsonlToCiff::convert`)

Each input line's id string is looked up in `docid_map`; a hit reuses the
stored internal docid, a miss assigns `current_docid + 1`.  One
`DocRecord` is pushed per line regardless, `doc_records` is stably sorted
by docid, and `num_docs = doc_records.len()`.  The `HashMap` is modelled
by an association list (keys are distinct, so lookup agrees). -/

/-- Embeds the per-line docid lookup/assignment loop: returns the
internal docid chosen for each line, in line order. -/
def assignGo : List String → List (String × Int) → Int → List Int
  | [], _, _ => []
  | id :: rest, map, cur =>
    match map.lookup id with
    | some d => d :: assignGo rest map cur
    | none => (cur + 1) :: assignGo rest ((id, cur + 1) :: map) (cur + 1)

/-- Internal docids assigned to the input lines (`current_docid` starts
at `-1`, so the first fresh id is 0). -/
def assignDocids (ids : List String) : List Int := assignGo ids [] (-1)

/-- Embeds the per-line `doc_records.push`: one record per input line,
pairing the assigned docid with the line's id string. -/
def docRecordsOf (ids : List String) : List (Int × String) :=
  (assignDocids ids).zip ids

/-- Embeds `doc_records.sort_by_key(DocRecord::get_docid)` (a stable sort
by docid) applied before emission. -/
def emittedDocRecords (ids : List String) : List (Int × String) :=
  (docRecordsOf ids).mergeSort (fun a b => decide (a.1 ≤ b.1))

theorem assignGo_length (ids : List String) :
    ∀ map cur, (assignGo ids map cur).length = ids.length := by
  induction ids with
  | nil => intro map cur; rfl
  | cons id rest ih =>
    intro map cur
    unfold assignGo
    rcases h : map.lookup id with _ | d
    · simp [ih]
    · simp [ih]

theorem assignGo_lookup (ids : List String) :
    ∀ (m : List (String × Int)) cur s d j, m.lookup s = some d →
      ids.get? j = some s → (assignGo ids m cur).get? j = some d := by
  induction ids with
  | nil => intro m cur s d j _ hj; simp at hj
  | cons id rest ih =>
    intro m cur s d j hlook hj
    unfold assignGo
    rcases hl : m.lookup id with _ | d0
    · rcases j with _ | j
      · have hs : id = s := by simpa using hj
        rw [hs, hlook] at hl
        exact absurd hl (by simp)
      · have hne : id ≠ s := by
          intro hEq
          rw [hEq, hlook] at hl
          exact absurd hl (by simp)
        have hlook2 : (((id, cur + 1) :: m).lookup s) = some d := by
          show (match s == id with
            | true => some (cur + 1)
            | false => List.lookup s m) = some d
          rw [show (s == id) = false from by
            simp only [beq_eq_false_iff_ne]
            exact fun hc => hne hc.symm]
          exact hlook
        simp only [List.get?_cons_succ]
        exact ih _ _ s d j hlook2 (by simpa using hj)
    · rcases j with _ | j
      · have hs : id = s := by simpa using hj
        rw [hs, hlook] at hl
        have hd : d = d0 := by simpa using hl
        simp [hd]
      · simp only [List.get?_cons_succ]
        exact ih _ _ s d j hlook (by simpa using hj)

theorem assignGo_eq_of_dup (ids : List String) :
    ∀ (m : List (String × Int)) cur j k s, j < k →
      ids.get? j = some s → ids.get? k = some s →
      (assignGo ids m cur).get? k = (assignGo ids m cur).get? j := by
  induction ids with
  | nil => intro m cur j k s _ hj _; simp at hj
  | cons id rest ih =>
    intro m cur j k s hjk hj hk
    rcases j with _ | j
    · have hs : id = s := by simpa using hj
      subst hs
      rcases k with _ | k
      · omega
      · have hk2 : rest.get? k = some id := by simpa using hk
        unfold assignGo
        rcases hl : m.lookup id with _ | d0
        · have hlook2 : (((id, cur + 1) :: m).lookup id) = some (cur + 1) := by
            show (match id == id with
              | true => some (cur + 1)
              | false => List.lookup id m) = some (cur + 1)
            rw [show (id == id) = true from by simp]
          have := assignGo_lookup rest ((id, cur + 1) :: m) (cur + 1) id (cur + 1) k
            hlook2 hk2
          simp only [List.get?_cons_succ, List.get?_cons_zero]
          exact this
        · have := assignGo_lookup rest m cur id d0 k hl hk2
          simp only [List.get?_cons_succ, List.get?_cons_zero]
          exact this
    · rcases k with _ | k
      · omega
      · have hj2 : rest.get? j = some s := by simpa using hj
        have hk2 : rest.get? k = some s := by simpa using hk
        unfold assignGo
        rcases hl : m.lookup id with _ | d0
        · simp only [List.get?_cons_succ]
          exact ih _ _ j k s (by omega) hj2 hk2
        · simp only [List.get?_cons_succ]
          exact ih _ _ j k s (by omega) hj2 hk2

/-- claim C10: when the same id string occurs on two input lines, both
lines are assigned the same internal docid (so the emitted doc-record
stream contains duplicate docids), yet one record is still emitted per
line: the record count — and hence the header's `num_docs` — equals the
number of input lines, not the number of distinct ids. -/
theorem jsonl_duplicate_ids_spec (ids : List String) (j k : Nat) (s : String)
    (hjk : j < k) (hj : ids.get? j = some s) (hk : ids.get? k = some s) :
    (assignDocids ids).get? k = (assignDocids ids).get? j ∧
    (assignDocids ids).length = ids.length ∧
    (emittedDocRecords ids).length = ids.length ∧
    ¬ ((emittedDocRecords ids).map Prod.fst).Nodup := by
  have hlen : (assignDocids ids).length = ids.length := assignGo_length ids [] (-1)
  have heq : (assignDocids ids).get? k = (assignDocids ids).get? j :=
    assignGo_eq_of_dup ids [] (-1) j k s hjk hj hk
  have hperm : (emittedDocRecords ids).Perm (docRecordsOf ids) :=
    List.mergeSort_perm (docRecordsOf ids) _
  have hreclen : (docRecordsOf ids).length = ids.length := by
    unfold docRecordsOf
    rw [List.length_zip, hlen]
    exact Nat.min_self _
  have hemlen : (emittedDocRecords ids).length = ids.length := by
    rw [hperm.length_eq, hreclen]
  refine ⟨heq, hlen, hemlen, ?_⟩
  have hmapfst : (docRecordsOf ids).map Prod.fst = assignDocids ids := by
    unfold docRecordsOf
    exact List.map_fst_zip _ _ (by omega)
  have hmapperm : ((emittedDocRecords ids).map Prod.fst).Perm (assignDocids ids) := by
    rw [← hmapfst]
    exact hperm.map Prod.fst
  intro hnd
  have hnd2 : (assignDocids ids).Nodup := hmapperm.nodup_iff.mp hnd
  have hjl : j < (assignDocids ids).length := by
    rw [hlen]
    by_contra hge
    push_neg at hge
    rw [List.get?_eq_none.mpr (by omega)] at hj
    simp at hj
  have : j = k := List.get?_inj hjl hnd2 heq.symm
  omega

/-- Witness for claim C10 on the lines `["a", "b", "a"]`. -/
theorem jsonl_duplicate_ids_spec_witness :
    (assignDocids ["a", "b", "a"]).get? 2 = (assignDocids ["a", "b", "a"]).get? 0 ∧
    (assignDocids ["a", "b", "a"]).length = 3 ∧
    (emittedDocRecords ["a", "b", "a"]).length = 3 ∧
    ¬ ((emittedDocRecords ["a", "b", "a"]).map Prod.fst).Nodup := by
  exact jsonl_duplicate_ids_spec ["a", "b", "a"] 0 2 "a" (by norm_num) rfl rfl

/-! ## Term reordering (`src/lib.rs`, `reorder_pisa_index`)

`convert_to_pisa` ends with: if `check_lines_sorted(.terms)` fails,
`reorder_pisa_index` computes `order = (0..n).sort_by_key(|&i| &terms[i])`
(a stable sort), rewrites `.docs` with `skip_first = true` (leading
document-count singleton kept first, remaining sequences permuted),
rewrites `.freqs` fully permuted, and rewrites `.terms` in permutation
order.  Files are modelled by their lists of sequences / lines. -/

/-- Embeds `fn check_lines_sorted`: scans lines against the previous one
(initially the empty string), failing on any strict descent. -/
def checkFrom (prev : String) : List String → Bool
  | [] => true
  | l :: ls => if l < prev then false else checkFrom l ls

/-- Embeds the sortedness check run on the `.terms` file. -/
def checkLinesSorted (lines : List String) : Bool := checkFrom "" lines

/-- Modelled from the spec: `binary_collection::reorder` is called by
`reorder_postings` but its definition is missing from the provided
sources (only its callers are present).  Per spec §4.5 the rewrite
streams the sequences of the memory-mapped random-access collection out
to the fresh file in permuted order; an out-of-bounds index (the `at(i)`
panic) is modelled as `none`. -/
def reorder (seqs : List (List Nat)) : List Nat → Option (List (List Nat))
  | [] => some []
  | i :: rest =>
    match seqs.get? i with
    | none => none
    | some s =>
      match reorder seqs rest with
      | none => none
      | some out => some (s :: out)

/-- Embeds `fn reorder_postings`: with `skip_first` the head sequence
stays first and the permutation shifts by one
(`once(0).chain(order.iter().map(|&i| i + 1))`); otherwise the
permutation applies to all sequences. -/
def reorderPostings (seqs : List (List Nat)) (order : List Nat)
    (skipFirst : Bool) : Option (List (List Nat)) :=
  if skipFirst then reorder seqs (0 :: order.map (· + 1))
  else reorder seqs order

/-- Comparison used to model `order.sort_by_key(|&i| &terms[i])`: a
stable sort of the strictly increasing index list `0..n` by term key is
the same as sorting by the lexicographic pair (term, index), which
`mergeSort` with this total preorder computes. -/
def keyLe (terms : List String) (i j : Nat) : Bool :=
  decide (terms.getD i "" < terms.getD j "" ∨
    (terms.getD i "" = terms.getD j "" ∧ i ≤ j))

/-- Embeds the `order` computation of `reorder_pisa_index`. -/
def sortOrder (terms : List String) : List Nat :=
  (List.range terms.length).mergeSort (keyLe terms)

/-- Embeds `fn reorder_pisa_index` on the modelled file contents:
new `.terms` lines, new `.docs` sequences, new `.freqs` sequences. -/
def reorderPisaIndex (terms : List String) (docs freqs : List (List Nat)) :
    List String × Option (List (List Nat)) × Option (List (List Nat)) :=
  ((sortOrder terms).map (fun i => terms.getD i ""),
   reorderPostings docs (sortOrder terms) true,
   reorderPostings freqs (sortOrder terms) false)

/-- Embeds the tail of `convert_to_pisa`: the reorder pass runs only when
the `.terms` file is not sorted; otherwise all three files stay as
written. -/
def finalizePisa (terms : List String) (docs freqs : List (List Nat)) :
    List String × Option (List (List Nat)) × Option (List (List Nat)) :=
  if checkLinesSorted terms then (terms, some docs, some freqs)
  else reorderPisaIndex terms docs freqs

theorem empty_string_le (s : String) : "" ≤ s := by
  rw [String.le_iff_toList_le]
  exact List.nil_le

theorem checkFrom_iff (ls : List String) :
    ∀ prev, checkFrom prev ls = true ↔ List.Chain (· ≤ ·) prev ls := by
  induction ls with
  | nil => intro prev; simp [checkFrom]
  | cons l rest ih =>
    intro prev
    unfold checkFrom
    by_cases h : l < prev
    · rw [if_pos h]
      simp only [List.chain_cons]
      constructor
      · intro hf
        exact absurd hf (by simp)
      · intro hc
        exact absurd h (not_lt.mpr hc.1)
    · rw [if_neg h]
      rw [ih l]
      simp only [List.chain_cons]
      constructor
      · intro h2
        exact ⟨not_lt.mp h, h2⟩
      · intro hc
        exact hc.2

theorem checkLinesSorted_iff (lines : List String) :
    checkLinesSorted lines = true ↔ lines.Sorted (· ≤ ·) := by
  unfold checkLinesSorted
  rw [checkFrom_iff, List.chain_iff_pairwise]
  constructor
  · intro h
    exact (List.pairwise_cons.mp h).2
  · intro h
    rw [List.pairwise_cons]
    exact ⟨fun s _ => empty_string_le s, h⟩

theorem keyLe_trans (terms : List String) :
    ∀ a b c, keyLe terms a b = true → keyLe terms b c = true →
      keyLe terms a c = true := by
  intro a b c hab hbc
  unfold keyLe at hab hbc ⊢
  rw [decide_eq_true_eq] at hab hbc
  rw [decide_eq_true_eq]
  rcases hab with h1 | ⟨h1, h1i⟩
  · rcases hbc with h2 | ⟨h2, h2i⟩
    · exact Or.inl (lt_trans h1 h2)
    · exact Or.inl (by rw [← h2]; exact h1)
  · rcases hbc with h2 | ⟨h2, h2i⟩
    · exact Or.inl (by rw [h1]; exact h2)
    · exact Or.inr ⟨h1.trans h2, le_trans h1i h2i⟩

theorem keyLe_total (terms : List String) :
    ∀ a b, (keyLe terms a b || keyLe terms b a) = true := by
  intro a b
  rw [Bool.or_eq_true]
  unfold keyLe
  rw [decide_eq_true_eq, decide_eq_true_eq]
  rcases lt_trichotomy (terms.getD a "") (terms.getD b "") with h | h | h
  · exact Or.inl (Or.inl h)
  · rcases Nat.le_total a b with hi | hi
    · exact Or.inl (Or.inr ⟨h, hi⟩)
    · exact Or.inr (Or.inr ⟨h.symm, hi⟩)
  · exact Or.inr (Or.inl h)

theorem map_getD_range (terms : List String) :
    (List.range terms.length).map (fun i => terms.getD i "") = terms := by
  apply List.ext_get
  · simp
  · intro i h1 h2
    simp only [List.get_map, List.get_range]
    rw [List.getD_eq_get?, List.get?_eq_get h2]
    rfl

theorem reorder_eq_map (seqs : List (List Nat)) (order : List Nat)
    (h : ∀ i ∈ order, i < seqs.length) :
    reorder seqs order = some (order.map (fun i => seqs.getD i [])) := by
  induction order with
  | nil => rfl
  | cons i rest ih =>
    have hi := h i (List.mem_cons_self _ _)
    have hget : seqs.get? i = some (seqs.getD i []) := by
      rw [List.getD_eq_get?, List.get?_eq_get hi]
      rfl
    unfold reorder
    rw [hget, ih (fun j hj => h j (List.mem_cons_of_mem _ hj))]
    rfl

/-- claim C7: when the `.terms` file is not lexicographically sorted, the
reorder pass computes the permutation that stably sorts the terms (the
pairwise condition states exactly that ties keep original index order),
rewrites `.docs` keeping the leading document-count singleton first and
the remaining sequences in permuted order, rewrites `.freqs` with all
sequences in the same permuted order and no leading exception, and
rewrites `.terms` in sorted order (sorted, and a permutation of the
original terms); the sortedness test is exactly lexicographic
sortedness, and on an already-sorted `.terms` no reorder occurs and all
files are unchanged.  `docs` has one leading singleton plus one sequence
per term; `freqs` has one sequence per term. -/
theorem reorder_pisa_spec (terms : List String) (docs freqs : List (List Nat))
    (hdocs : docs.length = terms.length + 1) (hfreqs : freqs.length = terms.length) :
    (sortOrder terms).Perm (List.range terms.length) ∧
    (sortOrder terms).Pairwise (fun a b =>
      terms.getD a "" < terms.getD b "" ∨
      (terms.getD a "" = terms.getD b "" ∧ a < b)) ∧
    ((reorderPisaIndex terms docs freqs).1).Sorted (· ≤ ·) ∧
    ((reorderPisaIndex terms docs freqs).1).Perm terms ∧
    (reorderPisaIndex terms docs freqs).2.1 =
      some (docs.getD 0 [] :: (sortOrder terms).map (fun i => docs.getD (i + 1) [])) ∧
    (reorderPisaIndex terms docs freqs).2.2 =
      some ((sortOrder terms).map (fun i => freqs.getD i [])) ∧
    (checkLinesSorted terms = true ↔ terms.Sorted (· ≤ ·)) ∧
    (terms.Sorted (· ≤ ·) →
      finalizePisa terms docs freqs = (terms, some docs, some freqs)) := by
  have hperm : (sortOrder terms).Perm (List.range terms.length) :=
    List.mergeSort_perm _ _
  have hmem : ∀ i ∈ sortOrder terms, i < terms.length := by
    intro i hi
    exact List.mem_range.mp (hperm.mem_iff.mp hi)
  have hpw : (sortOrder terms).Pairwise (fun a b => keyLe terms a b = true) :=
    List.sorted_mergeSort (keyLe_trans terms) (keyLe_total terms) _
  have hnd : (sortOrder terms).Nodup := hperm.nodup_iff.mpr (List.nodup_range _)
  have hpw2 : (sortOrder terms).Pairwise (fun a b =>
      terms.getD a "" < terms.getD b "" ∨
      (terms.getD a "" = terms.getD b "" ∧ a < b)) := by
    refine (hpw.and hnd).imp ?_
    intro a b hab
    obtain ⟨h1, h2⟩ := hab
    unfold keyLe at h1
    rw [decide_eq_true_eq] at h1
    rcases h1 with h1 | ⟨h1a, h1b⟩
    · exact Or.inl h1
    · exact Or.inr ⟨h1a, lt_of_le_of_ne h1b h2⟩
  have hsorted : ((sortOrder terms).map (fun i => terms.getD i "")).Sorted (· ≤ ·) := by
    refine hpw2.map _ ?_
    intro a b hab
    rcases hab with h | ⟨h, _⟩
    · exact le_of_lt h
    · exact le_of_eq h
  have htermsperm : ((sortOrder terms).map (fun i => terms.getD i "")).Perm terms := by
    have h2 := hperm.map (fun i => terms.getD i "")
    rw [map_getD_range] at h2
    exact h2
  refine ⟨hperm, hpw2, hsorted, htermsperm, ?_, ?_, checkLinesSorted_iff terms, ?_⟩
  · show reorderPostings docs (sortOrder terms) true = _
    unfold reorderPostings
    rw [if_pos rfl]
    rw [reorder_eq_map docs (0 :: (sortOrder terms).map (· + 1)) (by
      intro i hi
      rcases List.mem_cons.mp hi with h0 | hmem2
      · omega
      · obtain ⟨j, hj, hji⟩ := List.mem_map.mp hmem2
        have := hmem j hj
        omega)]
    simp only [List.map_cons, List.map_map]
    rfl
  · show reorderPostings freqs (sortOrder terms) false = _
    unfold reorderPostings
    rw [if_neg (by simp)]
    exact reorder_eq_map freqs (sortOrder terms) (fun i hi => by
      have := hmem i hi
      omega)
  · intro hsortedTerms
    unfold finalizePisa
    rw [if_pos ((checkLinesSorted_iff terms).mpr hsortedTerms)]

/-- Witness for claim C7 on the two-term unsorted index
`terms = ["b", "a"]` (and the sorted check on `["a", "b"]`). -/
theorem reorder_pisa_spec_witness :
    ((reorderPisaIndex ["b", "a"] [[2], [10], [20]] [[5], [6]]).1).Sorted (· ≤ ·) ∧
    ((reorderPisaIndex ["b", "a"] [[2], [10], [20]] [[5], [6]]).1).Perm ["b", "a"] ∧
    (List.Sorted (· ≤ ·) ["a", "b"] →
      finalizePisa ["a", "b"] [[2], [10], [20]] [[5], [6]] =
        (["a", "b"], some [[2], [10], [20]], some [[5], [6]])) := by
  have h := reorder_pisa_spec ["b", "a"] [[2], [10], [20]] [[5], [6]]
    (by decide) (by decide)
  have h2 := reorder_pisa_spec ["a", "b"] [[2], [10], [20]] [[5], [6]]
    (by decide) (by decide)
  exact ⟨h.2.2.1, h.2.2.2.1, h2.2.2.2.2.2.2.2⟩

end Ciff
